import Mathlib

/-!
Verification development for the assembly-planner repository.

The file embeds, as executable Lean definitions, the planner components the
claims speak about:

* the `Combinator` of `src/src/combinator.hpp` (multi-agent / multi-action
  assignment enumeration), together with a stateful variant mirroring its
  reusable member buffers;
* the score computation and search loop of `src/src/astar.hpp`;
* `IoXml::parse_costmap` and `IoXml::validate_graph` of `src/src/io.hpp`;
* the pointer-arena directed graph of
  `src/assemblyPlanner/Source/graph.hpp` (`insertNode`, `insertEdge`,
  `findEdge`, `eraseEdge`, `eraseNode`).

Machine doubles are modelled as rationals (or reals where a logarithm is
taken); container iteration is modelled by lists; C++ undefined behaviour
(out-of-bounds reads, use after free, uninitialized indices) is modelled by
`Option.none`.
-/

/-- View of the assembly graph as used by the combinator and the A* scorer.
Modelled from the spec: the planner's graph type (`src/src/graph.hpp`,
included by `combinator.hpp` and `astar.hpp`) is not among the sources; per
the data model of the spec, `successorNodes v` lists the destination ids of
the edges leaving `v`, and `getNodeData` yields the stored payload, of which
only the `name` field is read here. -/
structure AssemblyView where
  succ : Nat → List Nat
  name : Nat → String

/-- One tuple read of `Combinator::generateActionCombinationSets`: the loop
body reads `successorNodes(node_ids[i])[indices[i]]` for every `i`.
`List.get?` returns `none` on an out-of-bounds index, which in the C++
(`std::vector::operator[]`) is undefined behaviour. -/
def readTuple {α : Type} : List (List α) → List Nat → Option (List α)
  | [], [] => some []
  | l :: ls, i :: is => do
      let x ← l.get? i
      let rest ← readTuple ls is
      pure (x :: rest)
  | _, _ => none

/-- Index advance of `Combinator::generateActionCombinationSets`: find the
rightmost position that still has elements left, increment it and reset all
positions to its right to 0; `none` when no position can advance (the loop
breaks). -/
def stepIdx {α : Type} : List (List α) → List Nat → Option (List Nat)
  | [], [] => none
  | l :: ls, i :: is =>
      match stepIdx ls is with
      | some is2 => some (i :: is2)
      | none => if i + 1 < l.length then some ((i + 1) :: List.replicate ls.length 0) else none
  | _, _ => none

/-- The `while (1)` loop of `Combinator::generateActionCombinationSets`,
with an explicit fuel argument bounding the iteration count (the loop runs
at most `∏ lengths` iterations, so any larger fuel is inert). -/
def odometerRun {α : Type} (ls : List (List α)) : Nat → List Nat → Option (List (List α))
  | 0, _ => none
  | fuel + 1, idx =>
      match readTuple ls idx with
      | none => none
      | some t =>
          match stepIdx ls idx with
          | none => some [t]
          | some idx2 => (odometerRun ls fuel idx2).map (t :: ·)

/-- `Combinator::generateActionCombinationSets`: start from the all-zero
index vector and enumerate all combinations; `none` models the
out-of-bounds successor read that the C++ performs when some successor list
is empty. -/
def generateActionCombinationSets {α : Type} (ls : List (List α)) : Option (List (List α)) :=
  odometerRun ls ((ls.map List.length).prod + 1) (List.replicate ls.length 0)

/-- Cartesian product of the successor lists in odometer order (leftmost
index slowest, rightmost advances first) — the value
`generateActionCombinationSets` computes when every list is non-empty. -/
def actionProduct {α : Type} : List (List α) → List (List α)
  | [] => [[]]
  | l :: ls => l.flatMap (fun x => (actionProduct ls).map (x :: ·))

/-- The tail of the odometer enumeration that starts at index vector `idx`. -/
def productFrom {α : Type} [Inhabited α] : List (List α) → List Nat → List (List α)
  | [], [] => [[]]
  | l :: ls, i :: is =>
      ((productFrom ls is).map (l.getD i default :: ·)) ++
        ((l.drop (i + 1)).flatMap (fun x => (actionProduct ls).map (x :: ·)))
  | _, _ => []

/-- The tuple addressed by index vector `idx`. -/
def tupleAt {α : Type} [Inhabited α] : List (List α) → List Nat → List α
  | l :: ls, i :: is => l.getD i default :: tupleAt ls is
  | _, _ => []

/-- An index vector is valid when it is componentwise in bounds. -/
def validIdx {α : Type} : List (List α) → List Nat → Prop
  | [], [] => True
  | l :: ls, i :: is => i < l.length ∧ validIdx ls is
  | _, _ => False

theorem readTuple_valid {α : Type} [Inhabited α] :
    ∀ (ls : List (List α)) (idx : List Nat), validIdx ls idx →
      readTuple ls idx = some (tupleAt ls idx) := by
  intro ls
  induction ls with
  | nil =>
      intro idx h
      cases idx with
      | nil => rfl
      | cons i is => exact absurd h (by simp [validIdx])
  | cons l ls ih =>
      intro idx h
      cases idx with
      | nil => exact absurd h (by simp [validIdx])
      | cons i is =>
          obtain ⟨hi, hrest⟩ := h
          simp [readTuple, tupleAt, List.getElem?_eq_getElem hi, ih is hrest,
            List.getD_eq_getElem?_getD]

theorem validIdx_all_ne_nil {α : Type} :
    ∀ (ls : List (List α)) (idx : List Nat), validIdx ls idx → ∀ l ∈ ls, l ≠ [] := by
  intro ls
  induction ls with
  | nil => intro idx _ l hl; cases hl
  | cons a as ih =>
      intro idx h l hl
      cases idx with
      | nil => exact absurd h (by simp [validIdx])
      | cons i is =>
          obtain ⟨hi, hrest⟩ := h
          rw [List.mem_cons] at hl
          rcases hl with rfl | hl
          · intro hnil; rw [hnil] at hi; simp at hi
          · exact ih is hrest l hl

theorem validIdx_zeros {α : Type} :
    ∀ ls : List (List α), (∀ l ∈ ls, l ≠ []) → validIdx ls (List.replicate ls.length 0) := by
  intro ls
  induction ls with
  | nil => intro _; simp [validIdx]
  | cons a as ih =>
      intro h
      refine ⟨?_, ?_⟩
      · have : a ≠ [] := h a (by simp)
        exact List.length_pos.mpr this
      · exact ih fun l hl => h l (List.mem_cons_of_mem a hl)

theorem productFrom_zeros {α : Type} [Inhabited α] :
    ∀ ls : List (List α), (∀ l ∈ ls, l ≠ []) →
      productFrom ls (List.replicate ls.length 0) = actionProduct ls := by
  intro ls
  induction ls with
  | nil => intro _; rfl
  | cons a as ih =>
      intro h
      have ha : a ≠ [] := h a (by simp)
      have ha0 : 0 < a.length := List.length_pos.mpr ha
      have hcons : a = a[0] :: a.drop 1 := by
        conv_lhs => rw [← List.take_append_drop 1 a]
        rw [List.take_one]
        rw [List.head?_eq_getElem?, List.getElem?_eq_getElem ha0]
        rfl
      simp only [List.length_cons, List.replicate_succ, productFrom]
      rw [ih fun l hl => h l (List.mem_cons_of_mem a hl)]
      conv_rhs => rw [actionProduct, hcons]
      simp [List.getD_eq_getElem?_getD, List.getElem?_eq_getElem ha0]

theorem stepIdx_none_productFrom {α : Type} [Inhabited α] :
    ∀ (ls : List (List α)) (idx : List Nat), validIdx ls idx →
      stepIdx ls idx = none → productFrom ls idx = [tupleAt ls idx] := by
  intro ls
  induction ls with
  | nil =>
      intro idx h _
      cases idx with
      | nil => rfl
      | cons i is => exact absurd h (by simp [validIdx])
  | cons a as ih =>
      intro idx h hstep
      cases idx with
      | nil => exact absurd h (by simp [validIdx])
      | cons i is =>
          obtain ⟨hi, hrest⟩ := h
          cases hs : stepIdx as is with
          | some is2 => rw [stepIdx, hs] at hstep; cases hstep
          | none =>
              rw [stepIdx, hs] at hstep
              have hlen : ¬ i + 1 < a.length := by
                by_contra hc
                rw [if_pos hc] at hstep
                cases hstep
              have hdrop : a.drop (i + 1) = [] := by
                apply List.drop_eq_nil_of_le
                omega
              rw [productFrom, ih is hrest hs, hdrop]
              simp [tupleAt]

theorem stepIdx_some_productFrom {α : Type} [Inhabited α] :
    ∀ (ls : List (List α)) (idx idx2 : List Nat), validIdx ls idx →
      stepIdx ls idx = some idx2 →
      validIdx ls idx2 ∧ productFrom ls idx = tupleAt ls idx :: productFrom ls idx2 := by
  intro ls
  induction ls with
  | nil =>
      intro idx idx2 h hstep
      cases idx with
      | nil => cases hstep
      | cons i is => exact absurd h (by simp [validIdx])
  | cons a as ih =>
      intro idx idx2 h hstep
      cases idx with
      | nil => exact absurd h (by simp [validIdx])
      | cons i is =>
          obtain ⟨hi, hrest⟩ := h
          cases hs : stepIdx as is with
          | some is2 =>
              rw [stepIdx, hs] at hstep
              obtain ⟨hv2, hpf⟩ := ih is is2 hrest hs
              cases hstep
              refine ⟨⟨hi, hv2⟩, ?_⟩
              rw [productFrom, hpf]
              simp [productFrom, tupleAt]
          | none =>
              rw [stepIdx, hs] at hstep
              by_cases hc : i + 1 < a.length
              · rw [if_pos hc] at hstep
                cases hstep
                have hne : ∀ l ∈ as, l ≠ [] := validIdx_all_ne_nil as is hrest
                refine ⟨⟨hc, validIdx_zeros as hne⟩, ?_⟩
                have hpf0 : productFrom as is = [tupleAt as is] :=
                  stepIdx_none_productFrom as is hrest hs
                have hdrop : a.drop (i + 1) = a[i + 1] :: a.drop (i + 2) :=
                  List.drop_eq_getElem_cons hc
                rw [productFrom, hpf0]
                conv_rhs => rw [productFrom, productFrom_zeros as hne]
                rw [hdrop, List.flatMap_cons]
                rw [show a.getD (i + 1) default = a[i + 1] from
                  List.getD_eq_getElem a default hc]
                simp only [List.map_singleton, List.singleton_append, tupleAt]
              · rw [if_neg hc] at hstep
                cases hstep

theorem productFrom_ne_nil {α : Type} [Inhabited α]
    (ls : List (List α)) (idx : List Nat) (h : validIdx ls idx) :
    productFrom ls idx ≠ [] := by
  cases hs : stepIdx ls idx with
  | none => rw [stepIdx_none_productFrom ls idx h hs]; simp
  | some idx2 => rw [(stepIdx_some_productFrom ls idx idx2 h hs).2]; simp

theorem odometerRun_eq_productFrom {α : Type} [Inhabited α] (ls : List (List α)) :
    ∀ (fuel : Nat) (idx : List Nat), validIdx ls idx →
      (productFrom ls idx).length ≤ fuel →
      odometerRun ls fuel idx = some (productFrom ls idx) := by
  intro fuel
  induction fuel with
  | zero =>
      intro idx h hlen
      have := productFrom_ne_nil ls idx h
      have : (productFrom ls idx).length ≠ 0 := by
        simpa [List.length_eq_zero] using this
      omega
  | succ fuel ih =>
      intro idx h hlen
      cases hs : stepIdx ls idx with
      | none =>
          rw [stepIdx_none_productFrom ls idx h hs]
          simp [odometerRun, readTuple_valid ls idx h, hs]
      | some idx2 =>
          obtain ⟨hv2, hpf⟩ := stepIdx_some_productFrom ls idx idx2 h hs
          have hlen2 : (productFrom ls idx2).length ≤ fuel := by
            rw [hpf] at hlen
            simpa using hlen
          rw [hpf]
          simp [odometerRun, readTuple_valid ls idx h, hs, ih idx2 hv2 hlen2]

theorem sum_map_const {α : Type} :
    ∀ (l : List α) (c : Nat), (l.map (fun _ => c)).sum = l.length * c := by
  intro l c
  induction l with
  | nil => simp
  | cons x xs ih => simp [ih, Nat.succ_mul, Nat.add_comm]

theorem length_actionProduct {α : Type} :
    ∀ ls : List (List α), (actionProduct ls).length = (ls.map List.length).prod := by
  intro ls
  induction ls with
  | nil => rfl
  | cons a as ih =>
      rw [actionProduct, List.length_flatMap]
      simp only [Function.comp_def, List.length_map]
      rw [sum_map_const, ih]
      simp

theorem generateActionCombinationSets_eq {α : Type} [Inhabited α]
    (ls : List (List α)) (h : ∀ l ∈ ls, l ≠ []) :
    generateActionCombinationSets ls = some (actionProduct ls) := by
  have hv := validIdx_zeros ls h
  have hz := productFrom_zeros ls h
  rw [generateActionCombinationSets, odometerRun_eq_productFrom ls _ _ hv, hz]
  rw [hz, length_actionProduct]
  omega

/-- All ways of picking one element out of a list, in list order, each
paired with the remaining elements (relative order kept). -/
def picks {α : Type} : List α → List (α × List α)
  | [] => []
  | x :: xs => (x, xs) :: (picks xs).map (fun p => (p.1, x :: p.2))

/-- The ordered k-selections that the `next_permutation` loop of
`Combinator::assignAgentsToActions` enumerates: the loop walks all
permutations of the selector vector `d = [0,…,n-1]`, reads only the first
`k` entries and skips, by reversing the tail, all permutations sharing that
prefix — visiting each length-`k` sequence of distinct positions exactly
once, lexicographically by selected index sequence.  This recursion
produces the selected action lists in that same order. -/
def kperms {α : Type} : List α → Nat → List (List α)
  | _, 0 => [[]]
  | l, k + 1 => (picks l).flatMap (fun p => (kperms p.2 k).map (p.1 :: ·))

/-- The size-`k` subsets that `Combinator::generateAgentCombinationSets`
enumerates through `std::prev_permutation` on the boolean selector vector,
in the order produced (lexicographic by selected index set, roster order
kept inside each subset). -/
def combosLen {α : Type} : Nat → List α → List (List α)
  | 0, _ => [[]]
  | _ + 1, [] => []
  | k + 1, x :: xs => ((combosLen k xs).map (x :: ·)) ++ combosLen (k + 1) xs

/-- The `AgentActionAssignment` record of `types.hpp`. -/
structure AgentActionAssignment where
  agent : String
  action : String
  action_node_id : Nat
  deriving DecidableEq, Repr

/-- `Combinator::assignAgentsToActions`: for each ordered selection of
`cur_agents.length` actions, pair the i-th agent with the i-th selected
action. -/
def assignAgentsToActions (cur_agents : List String)
    (cur_actions : List (String × Nat)) : List (List AgentActionAssignment) :=
  (kperms cur_actions cur_agents.length).map
    (fun sel => (cur_agents.zip sel).map
      (fun p => { agent := p.1, action := p.2.1, action_node_id := p.2.2 }))

/-- The per-frontier-node successor lists handed to the odometer: for each
node id the `(name, id)` pairs of its successors, as built in the loop body
of `Combinator::generateActionCombinationSets`. -/
def successorActions (g : AssemblyView) (node_ids : List Nat) :
    List (List (String × Nat)) :=
  node_ids.map (fun v => (g.succ v).map (fun u => (g.name u, u)))

/-- `Combinator::generateAgentActionAssignments`: enumerate the action
tuples, then for every subset size `j = 1..min(|frontier|, |agents|)`,
every agent subset of that size and every action tuple, append the
assignments of `assignAgentsToActions`.  `none` models the undefined
behaviour of the action-combination loop on an empty successor list. -/
def generateAgentActionAssignments (g : AssemblyView) (node_ids : List Nat)
    (agents : List String) : Option (List (List AgentActionAssignment)) :=
  (generateActionCombinationSets (successorActions g node_ids)).map
    (fun tuples =>
      (List.range' 1 (min node_ids.length agents.length)).flatMap (fun k =>
        (combosLen k agents).flatMap (fun ags =>
          tuples.flatMap (fun acts => assignAgentsToActions ags acts))))

theorem picks_length {α : Type} : ∀ l : List α, (picks l).length = l.length := by
  intro l
  induction l with
  | nil => rfl
  | cons x xs ih => simp [picks, ih]

theorem mem_picks_length {α : Type} :
    ∀ (l : List α) (p : α × List α), p ∈ picks l → p.2.length + 1 = l.length := by
  intro l
  induction l with
  | nil => intro p hp; cases hp
  | cons x xs ih =>
      intro p hp
      rw [picks, List.mem_cons] at hp
      rcases hp with rfl | hp
      · simp
      · rw [List.mem_map] at hp
        obtain ⟨q, hq, rfl⟩ := hp
        have := ih q hq
        simp only [List.length_cons]
        omega

theorem kperms_length {α : Type} :
    ∀ (k : Nat) (l : List α), (kperms l k).length = l.length.descFactorial k := by
  intro k
  induction k with
  | zero => intro l; simp [kperms]
  | succ k ih =>
      intro l
      rw [kperms, List.length_flatMap]
      have hconst : ∀ p ∈ picks l,
          ((kperms p.2 k).map (p.1 :: ·)).length = (l.length - 1).descFactorial k := by
        intro p hp
        rw [List.length_map, ih p.2]
        have := mem_picks_length l p hp
        have : p.2.length = l.length - 1 := by omega
        rw [this]
      have : List.map (List.length ∘ fun p => (kperms p.2 k).map (p.1 :: ·)) (picks l) =
          List.map (fun _ => (l.length - 1).descFactorial k) (picks l) := by
        apply List.map_congr_left
        intro p hp
        simpa using hconst p hp
      rw [this, sum_map_const, picks_length]
      cases hl : l.length with
      | zero => simp
      | succ n => rw [Nat.succ_descFactorial_succ]; simp

theorem combosLen_length {α : Type} :
    ∀ (l : List α) (k : Nat), (combosLen k l).length = l.length.choose k := by
  intro l
  induction l with
  | nil =>
      intro k
      cases k with
      | zero => rfl
      | succ k => simp [combosLen]
  | cons x xs ih =>
      intro k
      cases k with
      | zero => rfl
      | succ k =>
          rw [combosLen, List.length_append, List.length_map, ih k, ih (k + 1)]
          rw [List.length_cons, Nat.choose_succ_succ]

theorem mem_combosLen_length {α : Type} :
    ∀ (l : List α) (k : Nat) (c : List α), c ∈ combosLen k l → c.length = k := by
  intro l
  induction l with
  | nil =>
      intro k c hc
      cases k with
      | zero => rw [combosLen, List.mem_singleton] at hc; rw [hc]; rfl
      | succ k => cases hc
  | cons x xs ih =>
      intro k c hc
      cases k with
      | zero => rw [combosLen, List.mem_singleton] at hc; rw [hc]; rfl
      | succ k =>
          rw [combosLen, List.mem_append] at hc
          rcases hc with hc | hc
          · rw [List.mem_map] at hc
            obtain ⟨c2, hc2, rfl⟩ := hc
            rw [List.length_cons, ih k c2 hc2]
          · exact ih (k + 1) c hc

theorem mem_actionProduct_length {α : Type} :
    ∀ (ls : List (List α)) (t : List α), t ∈ actionProduct ls → t.length = ls.length := by
  intro ls
  induction ls with
  | nil =>
      intro t ht
      rw [actionProduct, List.mem_singleton] at ht
      rw [ht]; rfl
  | cons a as ih =>
      intro t ht
      rw [actionProduct, List.mem_flatMap] at ht
      obtain ⟨x, _, ht⟩ := ht
      rw [List.mem_map] at ht
      obtain ⟨t2, ht2, rfl⟩ := ht
      rw [List.length_cons, ih t2 ht2]; rfl

theorem assignAgentsToActions_length (ags : List String) (acts : List (String × Nat)) :
    (assignAgentsToActions ags acts).length = acts.length.descFactorial ags.length := by
  rw [assignAgentsToActions, List.length_map, kperms_length]

theorem combos_tuples_count (tuples : List (List (String × Nat))) (agents : List String)
    (k n p : Nat) (ht : ∀ t ∈ tuples, t.length = n) (hp : tuples.length = p) :
    ((combosLen k agents).flatMap
        (fun ags => tuples.flatMap (fun acts => assignAgentsToActions ags acts))).length =
      agents.length.choose k * n.descFactorial k * p := by
  rw [List.length_flatMap]
  have hinner : ∀ ags ∈ combosLen k agents,
      ((tuples.flatMap (fun acts => assignAgentsToActions ags acts)).length) =
        p * n.descFactorial k := by
    intro ags hags
    rw [List.length_flatMap]
    have : List.map (fun acts => (assignAgentsToActions ags acts).length) tuples =
        List.map (fun _ => n.descFactorial k) tuples := by
      apply List.map_congr_left
      intro t htm
      rw [assignAgentsToActions_length, ht t htm, mem_combosLen_length agents k ags hags]
    have hcomp : List.map (List.length ∘ fun acts => assignAgentsToActions ags acts) tuples =
        List.map (fun _ => n.descFactorial k) tuples := this
    rw [hcomp, sum_map_const, hp]
  have : List.map (List.length ∘ fun ags =>
      tuples.flatMap (fun acts => assignAgentsToActions ags acts)) (combosLen k agents) =
      List.map (fun _ => p * n.descFactorial k) (combosLen k agents) := by
    apply List.map_congr_left
    intro ags hags
    exact hinner ags hags
  rw [this, sum_map_const, combosLen_length]
  ring

/-- The number of assignments the source emits:
`Σ_{k=1..min(n,m)} C(m,k) · n!/(n-k)! · p`, for frontier size `n`, roster
size `m` and `p` the product of the successor-list lengths. -/
def codeAssignmentCount (n m p : Nat) : Nat :=
  ((List.range' 1 (min n m)).map (fun k => m.choose k * n.descFactorial k * p)).sum

/-- The number of assignments the claim states:
`Σ_{k=1..min(n,m)} C(m,k) · k! · p` (written here after the claim's words,
for comparison with `codeAssignmentCount`). -/
def specAssignmentCount (n m p : Nat) : Nat :=
  ((List.range' 1 (min n m)).map (fun k => m.choose k * k.factorial * p)).sum

/-- C1 (amended): on a frontier whose nodes all have at least one successor,
the returned assignment list has length
`Σ_{k=1..min(n,m)} C(m,k) · n!/(n-k)! · ∏|Aᵢ|`: the permutation loop emits
one assignment per ordered selection of `k` of the `n` chosen actions
(`n!/(n-k)!` of them), not `k!` as the claim stated. -/
theorem combinator_assignment_count_amended (g : AssemblyView) (node_ids : List Nat)
    (agents : List String) (h : ∀ v ∈ node_ids, g.succ v ≠ []) :
    (generateAgentActionAssignments g node_ids agents).map List.length =
      some (codeAssignmentCount node_ids.length agents.length
        ((node_ids.map (fun v => (g.succ v).length)).prod)) := by
  have hne : ∀ l ∈ successorActions g node_ids, l ≠ [] := by
    intro l hl
    rw [successorActions, List.mem_map] at hl
    obtain ⟨v, hv, rfl⟩ := hl
    simp only [ne_eq, List.map_eq_nil_iff]
    exact h v hv
  rw [generateAgentActionAssignments, generateActionCombinationSets_eq _ hne]
  rw [Option.map_some', Option.map_some']
  congr 1
  rw [List.length_flatMap, codeAssignmentCount]
  have hn : (successorActions g node_ids).length = node_ids.length := by
    rw [successorActions, List.length_map]
  have hp : (actionProduct (successorActions g node_ids)).length =
      (node_ids.map (fun v => (g.succ v).length)).prod := by
    rw [length_actionProduct, successorActions, List.map_map]
    congr 1
    apply List.map_congr_left
    intro v _
    simp
  congr 1
  apply List.map_congr_left
  intro k _
  have := combos_tuples_count (actionProduct (successorActions g node_ids)) agents k
    node_ids.length ((node_ids.map (fun v => (g.succ v).length)).prod)
    (fun t htm => by rw [mem_actionProduct_length _ t htm, hn])
    hp
  simpa using this

/-- Frontier view for the concrete combinator evaluations: node 0 has one
successor, node 1 has two, all other nodes none. -/
def cexView : AssemblyView :=
  { succ := fun v => if v = 0 then [10] else if v = 1 then [11, 12] else [],
    name := fun _ => "a" }

/-- C1 (counterexample): frontier `[0, 1]` with branching factors 1 and 2
and a single agent: the code emits 4 assignments, the claim's formula
`Σ C(m,k)·k!·∏|Aᵢ|` gives 2. -/
theorem combinator_assignment_count_spec_refuted :
    (generateAgentActionAssignments cexView [0, 1] ["g"]).map List.length = some 4 ∧
    specAssignmentCount 2 1 2 = 2 ∧
    (generateAgentActionAssignments cexView [0, 1] ["g"]).map List.length ≠
      some (specAssignmentCount 2 1 2) := by
  decide

theorem combinator_assignment_count_amended_witness :
    (∀ v ∈ [0, 1], cexView.succ v ≠ []) ∧
    (generateAgentActionAssignments cexView [0, 1] ["g", "h"]).map List.length =
      some (codeAssignmentCount (List.length [0, 1]) (List.length ["g", "h"])
        (([0, 1].map (fun v => (cexView.succ v).length)).prod)) :=
  ⟨by decide, combinator_assignment_count_amended cexView [0, 1] ["g", "h"] (by decide)⟩

/-- View in which every node has an empty successor list. -/
def deadEndView : AssemblyView := { succ := fun _ => [], name := fun _ => "s" }

/-- C2: on a non-empty frontier containing a node with no successors, the
first iteration of the action-combination loop reads index 0 of an empty
successor list — out of bounds, modelled as `none` — instead of returning
the empty assignment list the claim (and the spec) state. -/
theorem combinator_empty_successors_oob :
    generateAgentActionAssignments deadEndView [0] ["g"] = none ∧
    generateAgentActionAssignments deadEndView [0] ["g"] ≠ some [] := by
  decide

/-- The member buffers of class `Combinator` that persist between calls
(`node_actions_` and `temp_nodes` are declared but never used by the
sources). -/
structure CombinatorState where
  node_actions : List (String × List String)
  temp_nodes : List String
  agent_action_assignements : List (List AgentActionAssignment)
  temp_agent_combinations : List (List String)
  temp_agent_set : List String
  temp_action_combinations : List (List (String × Nat))
  temp_action_set : List (String × Nat)
  deriving DecidableEq, Repr

/-- Stateful `Combinator::generateAgentCombinationSets`: clears and refills
`temp_agent_combinations_`; `temp_agent_set_` is left holding the last
subset pushed (the do-while loop runs at least once whenever `k ≤ n`). -/
def generateAgentCombinationSetsS (agents : List String) (k : Nat)
    (s : CombinatorState) : CombinatorState :=
  let cs := combosLen k agents
  { s with temp_agent_combinations := cs, temp_agent_set := cs.getLastD s.temp_agent_set }

/-- Stateful `Combinator::generateActionCombinationSets`: clears and refills
`temp_action_combinations_`; `temp_action_set_` is left holding the last
tuple pushed.  `none` models the out-of-bounds successor read on an empty
successor list. -/
def generateActionCombinationSetsS (g : AssemblyView) (node_ids : List Nat)
    (s : CombinatorState) : Option CombinatorState :=
  match generateActionCombinationSets (successorActions g node_ids) with
  | none => none
  | some ts => some { s with temp_action_combinations := ts,
                             temp_action_set := ts.getLastD s.temp_action_set }

/-- Stateful `Combinator::assignAgentsToActions`: pushes every emitted
assignment onto `agent_action_assignements_`. -/
def assignAgentsToActionsS (ags : List String) (acts : List (String × Nat))
    (s : CombinatorState) : CombinatorState :=
  { s with agent_action_assignements :=
      s.agent_action_assignements ++ assignAgentsToActions ags acts }

/-- The inner `for (auto &actions : temp_action_combinations_)` loop. -/
def actionLoopS (ags : List String) (tuples : List (List (String × Nat)))
    (s : CombinatorState) : CombinatorState :=
  tuples.foldl (fun s2 acts => assignAgentsToActionsS ags acts s2) s

/-- The middle `for (auto &agents : temp_agent_combinations_)` loop. -/
def agentLoopS (tuples : List (List (String × Nat))) (combos : List (List String))
    (s : CombinatorState) : CombinatorState :=
  combos.foldl (fun s2 ags => actionLoopS ags tuples s2) s

/-- The outer `for (size_t j = 1; j <= l; j++)` loop: regenerate the agent
combinations for the current size, then run the two inner loops over the
member buffers. -/
def kLoopS (agents : List String) (tuples : List (List (String × Nat)))
    (ks : List Nat) (s : CombinatorState) : CombinatorState :=
  ks.foldl (fun s2 k =>
    let s3 := generateAgentCombinationSetsS agents k s2
    agentLoopS tuples s3.temp_agent_combinations s3) s

/-- Stateful `Combinator::generateAgentActionAssignments`, mutating the
member buffers exactly as the source does: generate the action
combinations, clear the assignment accumulator, run the three nested
loops, and return the accumulator (which C++ copies out). -/
def generateAgentActionAssignmentsS (g : AssemblyView) (node_ids : List Nat)
    (agents : List String) (s : CombinatorState) :
    Option (List (List AgentActionAssignment) × CombinatorState) :=
  match generateActionCombinationSetsS g node_ids s with
  | none => none
  | some s1 =>
      let s2 := { s1 with agent_action_assignements := [] }
      let s3 := kLoopS agents s2.temp_action_combinations
        (List.range' 1 (min node_ids.length agents.length)) s2
      some (s3.agent_action_assignements, s3)

theorem actionLoopS_assignments (ags : List String) :
    ∀ (tuples : List (List (String × Nat))) (s : CombinatorState),
      (actionLoopS ags tuples s).agent_action_assignements =
        s.agent_action_assignements ++
          tuples.flatMap (fun acts => assignAgentsToActions ags acts) := by
  intro tuples
  induction tuples with
  | nil => intro s; simp [actionLoopS]
  | cons t ts ih =>
      intro s
      rw [actionLoopS, List.foldl_cons]
      have := ih (assignAgentsToActionsS ags t s)
      rw [actionLoopS] at this
      rw [this, assignAgentsToActionsS]
      simp

theorem actionLoopS_buffers (ags : List String) :
    ∀ (tuples : List (List (String × Nat))) (s : CombinatorState),
      (actionLoopS ags tuples s).temp_agent_combinations = s.temp_agent_combinations ∧
      (actionLoopS ags tuples s).temp_action_combinations = s.temp_action_combinations := by
  intro tuples
  induction tuples with
  | nil => intro s; exact ⟨rfl, rfl⟩
  | cons t ts ih =>
      intro s
      rw [actionLoopS, List.foldl_cons]
      have := ih (assignAgentsToActionsS ags t s)
      rw [actionLoopS] at this
      exact this

theorem agentLoopS_assignments (tuples : List (List (String × Nat))) :
    ∀ (combos : List (List String)) (s : CombinatorState),
      (agentLoopS tuples combos s).agent_action_assignements =
        s.agent_action_assignements ++
          combos.flatMap (fun ags =>
            tuples.flatMap (fun acts => assignAgentsToActions ags acts)) := by
  intro combos
  induction combos with
  | nil => intro s; simp [agentLoopS]
  | cons c cs ih =>
      intro s
      rw [agentLoopS, List.foldl_cons]
      have := ih (actionLoopS c tuples s)
      rw [agentLoopS] at this
      rw [this, actionLoopS_assignments]
      simp

theorem agentLoopS_buffers (tuples : List (List (String × Nat))) :
    ∀ (combos : List (List String)) (s : CombinatorState),
      (agentLoopS tuples combos s).temp_action_combinations =
        s.temp_action_combinations := by
  intro combos
  induction combos with
  | nil => intro s; rfl
  | cons c cs ih =>
      intro s
      rw [agentLoopS, List.foldl_cons]
      have := ih (actionLoopS c tuples s)
      rw [agentLoopS] at this
      rw [this, (actionLoopS_buffers c tuples s).2]

theorem kLoopS_assignments (agents : List String) (tuples : List (List (String × Nat))) :
    ∀ (ks : List Nat) (s : CombinatorState),
      (kLoopS agents tuples ks s).agent_action_assignements =
        s.agent_action_assignements ++
          ks.flatMap (fun k => (combosLen k agents).flatMap (fun ags =>
            tuples.flatMap (fun acts => assignAgentsToActions ags acts))) := by
  intro ks
  induction ks with
  | nil => intro s; simp [kLoopS]
  | cons k ks ih =>
      intro s
      rw [kLoopS, List.foldl_cons]
      have := ih (agentLoopS tuples
        (generateAgentCombinationSetsS agents k s).temp_agent_combinations
        (generateAgentCombinationSetsS agents k s))
      rw [kLoopS] at this
      rw [this, agentLoopS_assignments]
      rw [generateAgentCombinationSetsS]
      simp

/-- The stateful combinator returns the same assignment list as the pure
one, whatever the incoming buffer contents. -/
theorem generateAgentActionAssignmentsS_fst (g : AssemblyView) (node_ids : List Nat)
    (agents : List String) (s : CombinatorState) :
    (generateAgentActionAssignmentsS g node_ids agents s).map Prod.fst =
      generateAgentActionAssignments g node_ids agents := by
  rw [generateAgentActionAssignmentsS, generateAgentActionAssignments]
  cases hts : generateActionCombinationSets (successorActions g node_ids) with
  | none => rw [generateActionCombinationSetsS, hts]; rfl
  | some ts =>
      rw [generateActionCombinationSetsS, hts]
      simp only [Option.map_some']
      congr 1
      rw [kLoopS_assignments]
      simp

/-- C9: `generateAgentActionAssignments` is deterministic and history-free —
two calls with equal graph, frontier and roster arguments return equal
assignment lists regardless of the member-buffer contents left behind by
any earlier calls. -/
theorem combinator_history_free (g : AssemblyView) (node_ids : List Nat)
    (agents : List String) (s t : CombinatorState) :
    (generateAgentActionAssignmentsS g node_ids agents s).map Prod.fst =
      (generateAgentActionAssignmentsS g node_ids agents t).map Prod.fst := by
  rw [generateAgentActionAssignmentsS_fst, generateAgentActionAssignmentsS_fst]

/-- The `SearchData` node payload of `types.hpp`; doubles are modelled as
reals, unordered maps as association lists. -/
structure SearchData where
  marked : Bool
  g_score : ℝ
  f_score : ℝ
  h_score : ℝ
  minimum_cost_action : ℝ
  subassemblies : List (String × Nat)
  actions : List (String × Nat)

/-- The maximum-comparison fold in `AStarSearch::calc_hscore`. -/
def foldMax {β : Type} (h : β → Nat) (l : List β) (a : Nat) : Nat :=
  l.foldl (fun m x => if h x > m then h x else m) a

/-- The name-length maximum computed by `AStarSearch::calc_hscore`. -/
def maxNameLength (g : AssemblyView) (subs : List (String × Nat)) : Nat :=
  foldMax (fun x => (g.name x.2).length) subs 0

/-- `AStarSearch::calc_hscore`: `log2f(maximum_length_subassembly) *
minimum_cost_action`, the float logarithm modelled by the real `logb 2`. -/
noncomputable def calc_hscore (g : AssemblyView) (d : SearchData) : ℝ :=
  Real.logb 2 (maxNameLength g d.subassemblies) * d.minimum_cost_action

/-- `AStarSearch::calc_fscore`: `g_score + h_score`. -/
def calc_fscore (d : SearchData) : ℝ :=
  d.g_score + d.h_score

theorem le_foldMax_start {β : Type} (h : β → Nat) :
    ∀ (l : List β) (a : Nat), a ≤ foldMax h l a := by
  intro l
  induction l with
  | nil => intro a; exact Nat.le_refl a
  | cons x xs ih =>
      intro a
      rw [foldMax, List.foldl_cons]
      have h2 := ih (if h x > a then h x else a)
      rw [foldMax] at h2
      have : a ≤ if h x > a then h x else a := by split <;> omega
      omega

theorem le_foldMax_mem {β : Type} (h : β → Nat) :
    ∀ (l : List β) (a : Nat) (x : β), x ∈ l → h x ≤ foldMax h l a := by
  intro l
  induction l with
  | nil => intro a x hx; cases hx
  | cons y ys ih =>
      intro a x hx
      rw [List.mem_cons] at hx
      rw [foldMax, List.foldl_cons]
      rcases hx with rfl | hx
      · have h2 := le_foldMax_start h ys (if h x > a then h x else a)
        rw [foldMax] at h2
        have : h x ≤ if h x > a then h x else a := by split <;> omega
        omega
      · have h2 := ih (if h y > a then h y else a) x hx
        rw [foldMax] at h2
        exact h2

theorem foldMax_eq_start_or_mem {β : Type} (h : β → Nat) :
    ∀ (l : List β) (a : Nat), foldMax h l a = a ∨ ∃ x ∈ l, foldMax h l a = h x := by
  intro l
  induction l with
  | nil => intro a; exact Or.inl rfl
  | cons y ys ih =>
      intro a
      simp only [foldMax, List.foldl_cons]
      have h2 := ih (if h y > a then h y else a)
      simp only [foldMax] at h2
      rcases h2 with h2 | ⟨x, hx, h2⟩
      · by_cases hc : h y > a
        · rw [if_pos hc] at h2 ⊢
          exact Or.inr ⟨y, by simp, h2⟩
        · rw [if_neg hc] at h2 ⊢
          exact Or.inl h2
      · exact Or.inr ⟨x, List.mem_cons_of_mem y hx, h2⟩

theorem maxNameLength_is_max (g : AssemblyView) (subs : List (String × Nat))
    (h : subs ≠ []) :
    (∃ x ∈ subs, (g.name x.2).length = maxNameLength g subs) ∧
    (∀ x ∈ subs, (g.name x.2).length ≤ maxNameLength g subs) := by
  constructor
  · rcases foldMax_eq_start_or_mem (fun x => (g.name x.2).length) subs 0 with h0 | ⟨x, hx, he⟩
    · cases subs with
      | nil => exact absurd rfl h
      | cons y ys =>
          refine ⟨y, by simp, ?_⟩
          have hle : (g.name y.2).length ≤ maxNameLength g (y :: ys) :=
            le_foldMax_mem (fun x => (g.name x.2).length) (y :: ys) 0 y (by simp)
          have h0b : maxNameLength g (y :: ys) = 0 := h0
          omega
    · exact ⟨x, hx, he.symm⟩
  · intro x hx
    exact le_foldMax_mem (fun x => (g.name x.2).length) subs 0 x hx

/-- C4: for a node with a non-empty sub-assembly map, `calc_hscore` is
`log₂(L*) · minimum_cost_action` where `L*` is the maximum name length over
the node's sub-assemblies, and `calc_fscore` is `g_score + h_score`. -/
theorem astar_score_formulas (g : AssemblyView) (d : SearchData)
    (h : d.subassemblies ≠ []) :
    (∃ x ∈ d.subassemblies, (g.name x.2).length = maxNameLength g d.subassemblies) ∧
    (∀ x ∈ d.subassemblies, (g.name x.2).length ≤ maxNameLength g d.subassemblies) ∧
    calc_hscore g d =
      Real.logb 2 (maxNameLength g d.subassemblies) * d.minimum_cost_action ∧
    calc_fscore d = d.g_score + d.h_score := by
  obtain ⟨h1, h2⟩ := maxNameLength_is_max g d.subassemblies h
  exact ⟨h1, h2, rfl, rfl⟩

/-- Concrete search node for evaluating the score formulas. -/
def wSearchData : SearchData :=
  { marked := false, g_score := 3, f_score := 0, h_score := 0,
    minimum_cost_action := 2, subassemblies := [("a", 0)], actions := [] }

theorem astar_score_formulas_witness :
    (wSearchData.subassemblies ≠ []) ∧
    ((∃ x ∈ wSearchData.subassemblies,
        (cexView.name x.2).length = maxNameLength cexView wSearchData.subassemblies) ∧
     (∀ x ∈ wSearchData.subassemblies,
        (cexView.name x.2).length ≤ maxNameLength cexView wSearchData.subassemblies) ∧
     calc_hscore cexView wSearchData =
       Real.logb 2 (maxNameLength cexView wSearchData.subassemblies) *
         wSearchData.minimum_cost_action ∧
     calc_fscore wSearchData = wSearchData.g_score + wSearchData.h_score) :=
  ⟨by decide, astar_score_formulas cexView wSearchData (by decide)⟩

/-- `graph.hasSuccessor` as used by `AStarSearch::isGoal`.  Modelled from
the spec: a node has a successor when its successor list is non-empty. -/
def hasSuccessorB (g : AssemblyView) (v : Nat) : Bool :=
  !(g.succ v).isEmpty

/-- `AStarSearch::isGoal`: true exactly when no sub-assembly of the state
has an ACTION successor left in the assembly graph (the C++ returns false
at the first sub-assembly with a successor). -/
def isGoalB (g : AssemblyView) (d : SearchData) : Bool :=
  d.subassemblies.all (fun x => !hasSuccessorB g x.2)

/-- The search graph `AStarSearch::search` walks: successor states and edge
costs.  The expander (`expander.hpp`, not among the sources) materialises
this graph lazily; since `expandNode` is idempotent per node, the search is
modelled over the completed graph it builds. -/
structure SearchGraph where
  succ : Nat → List Nat
  cost : Nat → Nat → ℚ

/-- The mutable per-node scores of the search nodes, plus the open set.
`std::priority_queue` contents are modelled as the list of pushed node ids;
the scores live in maps because the C++ stores them in the nodes and
overwrites them on re-push. -/
structure AStarState where
  openSet : List Nat
  g : Nat → ℚ
  h : Nat → ℚ
  f : Nat → ℚ

/-- Pop an element with minimal `f_score` (ties resolved towards the
earlier pushed element; `std::priority_queue` leaves ties unspecified, and
no theorem below depends on the choice), returning it and the remaining
queue. -/
def popMinF (f : Nat → ℚ) : List Nat → Option (Nat × List Nat)
  | [] => none
  | v :: rest =>
      match popMinF f rest with
      | none => some (v, rest)
      | some (w, rest2) => if f v ≤ f w then some (v, rest) else some (w, v :: rest2)

/-- One child update of the `A*` loop body: set `g = g(current) + cost`,
`h` (the heuristic, abstracted as an arbitrary function `hfun` — it
influences only the pop order), `f = g + h`, and push the child. -/
def expandStep (G : SearchGraph) (hfun : Nat → ℚ) (cur : Nat)
    (st : AStarState) (c : Nat) : AStarState :=
  let gc := st.g cur + G.cost cur c
  { openSet := st.openSet ++ [c],
    g := Function.update st.g c gc,
    h := Function.update st.h c (hfun c),
    f := Function.update st.f c (gc + hfun c) }

/-- The `for (auto &edge : graph.getSuccessorEdges(current->id))` block of
the `A*` loop body: score and push every child. -/
def expandChildren (G : SearchGraph) (hfun : Nat → ℚ) (cur : Nat)
    (s : AStarState) : AStarState :=
  (G.succ cur).foldl (expandStep G hfun cur) s

/-- How `AStarSearch::search` returns: a goal node found while popping, or
the exhausted-queue fallthrough returning the `current` pointer (the last
node popped, `nullptr` = `none` when the loop never ran). -/
inductive SearchOutcome
  | goal (v : Nat)
  | exhausted (last : Option Nat)
  deriving DecidableEq, Repr

/-- The `while (!openSet.empty())` loop of `AStarSearch::search`, with a
fuel argument bounding the number of iterations (`none` = fuel ran out). -/
def searchLoop (G : SearchGraph) (goal : Nat → Bool) (hfun : Nat → ℚ) :
    Nat → AStarState → Option Nat → Option SearchOutcome
  | 0, _, _ => none
  | fuel + 1, s, last =>
      match popMinF s.f s.openSet with
      | none => some (SearchOutcome.exhausted last)
      | some (v, rest) =>
          if goal v then some (SearchOutcome.goal v)
          else searchLoop G goal hfun fuel
            (expandChildren G hfun v { s with openSet := rest }) (some v)

/-- `AStarSearch::search`: score the root (`g` defaults to 0, `h` from the
heuristic, `f = g + h`), push it, and run the loop with `current`
initially null. -/
def searchA (G : SearchGraph) (goal : Nat → Bool) (hfun : Nat → ℚ) (root : Nat)
    (fuel : Nat) : Option SearchOutcome :=
  searchLoop G goal hfun fuel
    { openSet := [root], g := fun _ => 0,
      h := Function.update (fun _ => 0) root (hfun root),
      f := Function.update (fun _ => 0) root (0 + hfun root) } none

/-- The states reachable from the search root. -/
inductive ReachableFrom (G : SearchGraph) (root : Nat) : Nat → Prop
  | refl : ReachableFrom G root root
  | step : ∀ u v, ReachableFrom G root u → v ∈ G.succ u → ReachableFrom G root v

/-- Number of root paths below a node, computed to a given depth. -/
def pathsF (G : SearchGraph) : Nat → Nat → Nat
  | 0, _ => 1
  | d + 1, v => 1 + ((G.succ v).map (pathsF G d)).sum

/-- Number of paths below a node of a rank-decreasing graph. -/
def pathsR (G : SearchGraph) (rank : Nat → Nat) (v : Nat) : Nat :=
  pathsF G (rank v + 1) v

/-- Loop potential: total path count of the open set. -/
def potential (G : SearchGraph) (rank : Nat → Nat) (q : List Nat) : Nat :=
  (q.map (pathsR G rank)).sum

theorem popMinF_eq_none (f : Nat → ℚ) :
    ∀ q : List Nat, popMinF f q = none → q = [] := by
  intro q h
  cases q with
  | nil => rfl
  | cons v rest =>
      rw [popMinF] at h
      cases h2 : popMinF f rest with
      | none => rw [h2] at h; cases h
      | some p =>
          rw [h2] at h
          by_cases hc : f v ≤ f p.1 <;> simp [hc] at h

theorem popMinF_decomp (f : Nat → ℚ) :
    ∀ (q : List Nat) (v : Nat) (r : List Nat), popMinF f q = some (v, r) →
      ∃ q1 q2, q = q1 ++ v :: q2 ∧ r = q1 ++ q2 := by
  intro q
  induction q with
  | nil => intro v r h; cases h
  | cons x rest ih =>
      intro v r h
      rw [popMinF] at h
      cases h2 : popMinF f rest with
      | none =>
          rw [h2] at h
          cases h
          exact ⟨[], rest, rfl, rfl⟩
      | some p =>
          obtain ⟨w, rest2⟩ := p
          rw [h2] at h
          dsimp only at h
          by_cases hc : f x ≤ f w
          · rw [if_pos hc] at h
            cases h
            exact ⟨[], rest, rfl, rfl⟩
          · rw [if_neg hc] at h
            cases h
            obtain ⟨q1, q2, hq, hr⟩ := ih _ _ h2
            exact ⟨x :: q1, q2, by rw [hq]; rfl, by rw [hr]; rfl⟩

theorem foldl_expandStep_openSet (G : SearchGraph) (hfun : Nat → ℚ) (cur : Nat) :
    ∀ (l : List Nat) (s : AStarState),
      (l.foldl (expandStep G hfun cur) s).openSet = s.openSet ++ l := by
  intro l
  induction l with
  | nil => intro s; simp
  | cons c cs ih =>
      intro s
      rw [List.foldl_cons, ih]
      rw [expandStep]
      simp

theorem expandChildren_openSet (G : SearchGraph) (hfun : Nat → ℚ) (cur : Nat)
    (s : AStarState) :
    (expandChildren G hfun cur s).openSet = s.openSet ++ G.succ cur := by
  rw [expandChildren, foldl_expandStep_openSet]

theorem pathsF_congr (G : SearchGraph) (rank : Nat → Nat)
    (hdec : ∀ u v, v ∈ G.succ u → rank v < rank u) :
    ∀ (d : Nat) (v : Nat), rank v < d → ∀ (e : Nat), rank v < e →
      pathsF G d v = pathsF G e v := by
  intro d
  induction d with
  | zero => intro v hv; omega
  | succ d ih =>
      intro v hv e he
      cases e with
      | zero => omega
      | succ e =>
          rw [pathsF, pathsF]
          congr 2
          apply List.map_congr_left
          intro c hc
          have hcv := hdec v c hc
          exact ih c (by omega) e (by omega)

theorem pathsR_succ (G : SearchGraph) (rank : Nat → Nat)
    (hdec : ∀ u v, v ∈ G.succ u → rank v < rank u) (v : Nat) :
    pathsR G rank v = 1 + ((G.succ v).map (pathsR G rank)).sum := by
  rw [pathsR, pathsF]
  congr 2
  apply List.map_congr_left
  intro c hc
  have hcv := hdec v c hc
  exact pathsF_congr G rank hdec (rank v) c hcv (rank c + 1) (by omega)

theorem searchLoop_exhausts (G : SearchGraph) (goal : Nat → Bool) (hfun : Nat → ℚ)
    (root : Nat) (rank : Nat → Nat)
    (hdec : ∀ u v, v ∈ G.succ u → rank v < rank u)
    (hgoal : ∀ v, ReachableFrom G root v → goal v = false) :
    ∀ (fuel : Nat) (s : AStarState) (last : Option Nat),
      (∀ v ∈ s.openSet, ReachableFrom G root v) →
      potential G rank s.openSet < fuel →
      ∃ r, searchLoop G goal hfun fuel s last = some (SearchOutcome.exhausted r) ∧
        ((s.openSet = [] ∧ r = last) ∨
          ∃ v, r = some v ∧ ReachableFrom G root v) := by
  intro fuel
  induction fuel with
  | zero => intro s last _ hpot; omega
  | succ fuel ih =>
      intro s last hreach hpot
      cases hpop : popMinF s.f s.openSet with
      | none =>
          refine ⟨last, ?_, Or.inl ⟨popMinF_eq_none s.f s.openSet hpop, rfl⟩⟩
          rw [searchLoop, hpop]
      | some vr =>
          obtain ⟨v, rest⟩ := vr
          obtain ⟨q1, q2, hq, hr⟩ := popMinF_decomp s.f s.openSet v rest hpop
          have hv : v ∈ s.openSet := by rw [hq]; simp
          have hvreach := hreach v hv
          have hgv : goal v = false := hgoal v hvreach
          have hopen : (expandChildren G hfun v { s with openSet := rest }).openSet =
              rest ++ G.succ v := expandChildren_openSet G hfun v _
          have hreach2 : ∀ w ∈ (expandChildren G hfun v
              { s with openSet := rest }).openSet, ReachableFrom G root w := by
            intro w hw
            rw [hopen, List.mem_append] at hw
            rcases hw with hw | hw
            · apply hreach
              rw [hq]
              rw [hr, List.mem_append] at hw
              rcases hw with hw | hw
              · exact List.mem_append_left _ hw
              · exact List.mem_append_right _ (List.mem_cons_of_mem v hw)
            · exact ReachableFrom.step v w hvreach hw
          have hpot2 : potential G rank
              (expandChildren G hfun v { s with openSet := rest }).openSet < fuel := by
            have hsplit : potential G rank s.openSet =
                potential G rank q1 + (pathsR G rank v + potential G rank q2) := by
              rw [hq, potential, List.map_append, List.sum_append, List.map_cons,
                List.sum_cons, potential, potential]
            have hnew : potential G rank
                (expandChildren G hfun v { s with openSet := rest }).openSet =
                potential G rank q1 + potential G rank q2 +
                  ((G.succ v).map (pathsR G rank)).sum := by
              rw [hopen, hr, potential, List.map_append, List.sum_append,
                List.map_append, List.sum_append, potential, potential]
            have hstep := pathsR_succ G rank hdec v
            omega
          obtain ⟨r, hrun, hcase⟩ := ih (expandChildren G hfun v
            { s with openSet := rest }) (some v) hreach2 hpot2
          refine ⟨r, ?_, ?_⟩
          · rw [searchLoop, hpop]
            dsimp only
            rw [hgv]
            simpa using hrun
          · rcases hcase with ⟨_, rfl⟩ | hcase
            · exact Or.inr ⟨v, rfl, hvreach⟩
            · exact Or.inr hcase

/-- C8: on a search graph whose edges decrease a rank (the lazily built
search DAG), with no reachable goal state and fuel above the path count of
the root, the loop terminates by emptying the open set and returns the
last-popped state — a reachable non-goal state, not a goal and not null. -/
theorem astar_search_no_goal (G : SearchGraph) (goal : Nat → Bool) (hfun : Nat → ℚ)
    (root : Nat) (rank : Nat → Nat) (fuel : Nat)
    (hdec : ∀ u v, v ∈ G.succ u → rank v < rank u)
    (hgoal : ∀ v, ReachableFrom G root v → goal v = false)
    (hfuel : pathsR G rank root < fuel) :
    ∃ v, searchA G goal hfun root fuel = some (SearchOutcome.exhausted (some v)) ∧
      ReachableFrom G root v ∧ goal v = false := by
  have hmain := searchLoop_exhausts G goal hfun root rank hdec hgoal fuel
    { openSet := [root], g := fun _ => 0,
      h := Function.update (fun _ => 0) root (hfun root),
      f := Function.update (fun _ => 0) root (0 + hfun root) } none
    (by
      intro v hv
      rw [List.mem_singleton] at hv
      rw [hv]
      exact ReachableFrom.refl)
    (by
      rw [potential, List.map_singleton, List.sum_singleton]
      exact hfuel)
  obtain ⟨r, hrun, hcase⟩ := hmain
  rcases hcase with ⟨hempty, _⟩ | ⟨v, rfl, hv⟩
  · cases hempty
  · exact ⟨v, hrun, hv, hgoal v hv⟩

/-- Two-node search graph for evaluating the search loop: the root 0 has
the single child 1, nothing else. -/
def demoSearchGraph : SearchGraph :=
  { succ := fun v => if v = 0 then [1] else [], cost := fun _ _ => 1 }

/-- Goal test of the concrete search: every search state carries the
sub-assembly frontier of `wSearchData`, which still has an ACTION
successor in `cexView`, so `isGoalB` rejects every state. -/
def demoGoal : Nat → Bool := fun _ => isGoalB cexView wSearchData

theorem astar_search_no_goal_witness :
    (∀ u v, v ∈ demoSearchGraph.succ u → (1 : Nat) - v < 1 - u) ∧
    (∀ v, ReachableFrom demoSearchGraph 0 v → demoGoal v = false) ∧
    pathsR demoSearchGraph (fun v => 1 - v) 0 < 3 ∧
    ∃ v, searchA demoSearchGraph demoGoal (fun _ => 0) 0 3 =
        some (SearchOutcome.exhausted (some v)) ∧
      ReachableFrom demoSearchGraph 0 v ∧ demoGoal v = false := by
  have hdec : ∀ u v, v ∈ demoSearchGraph.succ u → (1 : Nat) - v < 1 - u := by
    intro u v h
    by_cases hu : u = 0
    · subst hu
      simp [demoSearchGraph] at h
      subst h
      decide
    · simp [demoSearchGraph, hu] at h
  have hgoal : ∀ v, ReachableFrom demoSearchGraph 0 v → demoGoal v = false := by
    intro v _
    rfl
  exact ⟨hdec, hgoal, by decide,
    astar_search_no_goal demoSearchGraph demoGoal (fun _ => 0) 0
      (fun v => 1 - v) 3 hdec hgoal (by decide)⟩

/-- The lower-casing `std::transform(..., ::tolower)` applied by
`IoXml::parse_costmap` to the value attribute (ASCII case folding). -/
def lowerAscii (s : String) : String :=
  String.mk (s.data.map Char.toLower)

/-- Digit span of the float recognizer. -/
def spanDigits (cs : List Char) : List Char × List Char :=
  (cs.takeWhile Char.isDigit, cs.dropWhile Char.isDigit)

/-- Optional sign of the float recognizer. -/
def dropSign : List Char → List Char
  | '+' :: cs => cs
  | '-' :: cs => cs
  | cs => cs

/-- Exponent suffix of the float recognizer: nothing, or `e` plus an
optionally signed non-empty digit string consuming the rest. -/
def expPart : List Char → Bool
  | [] => true
  | 'e' :: cs =>
      let cs2 := dropSign cs
      let d := spanDigits cs2
      !d.1.isEmpty && d.2.isEmpty
  | _ => false

/-- Continuation of the float recognizer after the integral digits: an
optional fraction part, then the exponent; at least one digit must appear
before the exponent. -/
def mantissaRest (intDigits : List Char) : List Char → Bool
  | '.' :: cs =>
      let d := spanDigits cs
      (!intDigits.isEmpty || !d.1.isEmpty) && expPart d.2
  | cs => !intDigits.isEmpty && expPart cs

/-- The source's `is_float` (`istringstream >> float` succeeding with eof),
restricted to finite decimal and scientific literals.  The C++ stream
extractor additionally accepts spellings such as `infinity` and `nan`;
no theorem in this development depends on those inputs. -/
def is_float (s : String) : Bool :=
  let cs := dropSign s.toList
  let d := spanDigits cs
  mantissaRest d.1 d.2

/-- Numeric value of the digits read so far. -/
def digitsToNat (cs : List Char) : Nat :=
  cs.foldl (fun n c => n * 10 + (c.toNat - '0'.toNat)) 0

/-- Exponent value read by `std::stod` (after `e`, optional sign). -/
def expVal (cs : List Char) : Int :=
  match cs with
  | 'e' :: rest =>
      match rest with
      | '-' :: ds => -(digitsToNat (spanDigits ds).1 : Int)
      | '+' :: ds => (digitsToNat (spanDigits ds).1 : Int)
      | ds => (digitsToNat (spanDigits ds).1 : Int)
  | _ => 0

/-- Sign application of `std::stod`. -/
def ratSigned (neg : Bool) (q : ℚ) : ℚ :=
  if neg then -q else q

/-- `std::stod` on a literal accepted by `is_float`, as an exact rational
(a plain integral literal is returned directly; fraction digits and an
exponent scale it). -/
def ratOfFloatLit (s : String) : ℚ :=
  let cs0 := s.toList
  let neg : Bool := match cs0 with | '-' :: _ => true | _ => false
  let cs := dropSign cs0
  let d := spanDigits cs
  match d.2 with
  | [] => ratSigned neg (digitsToNat d.1 : ℚ)
  | rest2 =>
      let frac : List Char × List Char :=
        match rest2 with
        | '.' :: rest => ((spanDigits rest).1, (spanDigits rest).2)
        | _ => ([], rest2)
      let base : ℚ := (digitsToNat d.1 : ℚ) +
        (digitsToNat frac.1 : ℚ) / ((10 : ℚ) ^ frac.1.length)
      ratSigned neg base * (10 : ℚ) ^ expVal frac.2

/-- One `<cost agent="..." value="..."/>` element; `none` models a missing
attribute. -/
structure CostEntry where
  agent : Option String
  value : Option String
  deriving DecidableEq, Repr

/-- Assignment `costmap[k] = v` of `std::unordered_map::operator[]`:
overwrite an existing entry or add a new one. -/
def upsert : List (String × ℚ) → String → ℚ → List (String × ℚ)
  | [], k, v => [(k, v)]
  | p :: rest, k, v => if p.1 = k then (k, v) :: rest else p :: upsert rest k v

/-- Map lookup in the cost map. -/
def lookupC : List (String × ℚ) → String → Option ℚ
  | [], _ => none
  | p :: rest, k => if p.1 = k then some p.2 else lookupC rest k

/-- The element loop of `IoXml::parse_costmap`: missing attributes abort;
a (lower-cased) value `inf` stores `INT_MAX` = 2147483647; a value the
float recognizer accepts stores its `stod` value; anything else aborts. -/
def parse_costmap_go : List CostEntry → List (String × ℚ) → Option (List (String × ℚ))
  | [], acc => some acc
  | ⟨some a, some v0⟩ :: rest, acc =>
      let v := lowerAscii v0
      if v = "inf" then parse_costmap_go rest (upsert acc a 2147483647)
      else if is_float v then parse_costmap_go rest (upsert acc a (ratOfFloatLit v))
      else none
  | _ :: _, _ => none

/-- `IoXml::parse_costmap` over the list of `<cost>` child elements. -/
def parse_costmap (entries : List CostEntry) : Option (List (String × ℚ)) :=
  parse_costmap_go entries []

theorem lookupC_upsert_self :
    ∀ (m : List (String × ℚ)) (k : String) (v : ℚ), lookupC (upsert m k v) k = some v := by
  intro m k v
  induction m with
  | nil => simp [upsert, lookupC]
  | cons p rest ih =>
      by_cases hp : p.1 = k
      · rw [upsert, if_pos hp, lookupC]
        simp
      · rw [upsert, if_neg hp, lookupC, if_neg hp]
        exact ih

theorem lookupC_upsert_other :
    ∀ (m : List (String × ℚ)) (k k2 : String) (v : ℚ), k ≠ k2 →
      lookupC (upsert m k v) k2 = lookupC m k2 := by
  intro m k k2 v hne
  induction m with
  | nil => simp [upsert, lookupC, hne]
  | cons p rest ih =>
      by_cases hp : p.1 = k
      · rw [upsert, if_pos hp, lookupC, lookupC]
        have : ¬ (k = k2) := hne
        rw [if_neg this, if_neg (by rw [hp]; exact this)]
      · rw [upsert, if_neg hp, lookupC, lookupC]
        by_cases hp2 : p.1 = k2
        · rw [if_pos hp2, if_pos hp2]
        · rw [if_neg hp2, if_neg hp2]
          exact ih

theorem parse_costmap_go_bad :
    ∀ (entries : List CostEntry) (acc : List (String × ℚ)),
      (∃ e ∈ entries, ∃ v, e.value = some v ∧ lowerAscii v ≠ "inf" ∧
        is_float (lowerAscii v) = false) →
      parse_costmap_go entries acc = none := by
  intro entries
  induction entries with
  | nil =>
      intro acc h
      obtain ⟨e, he, _⟩ := h
      cases he
  | cons e rest ih =>
      intro acc h
      obtain ⟨e2, he2, v, hv, hne, hnf⟩ := h
      rw [List.mem_cons] at he2
      obtain ⟨ag, val⟩ := e
      cases ag with
      | none => rfl
      | some a =>
          cases val with
          | none => rfl
          | some v0 =>
              rw [parse_costmap_go]
              by_cases hif : lowerAscii v0 = "inf"
              · rw [if_pos hif]
                apply ih
                rcases he2 with he2 | he2
                · rw [he2] at hv
                  cases hv
                  exact absurd hif hne
                · exact ⟨e2, he2, v, hv, hne, hnf⟩
              · rw [if_neg hif]
                rcases he2 with he2 | he2
                · rw [he2] at hv
                  cases hv
                  rw [if_neg (by rw [hnf]; simp)]
                · by_cases hfl : is_float (lowerAscii v0) = true
                  · rw [if_pos hfl]
                    exact ih _ ⟨e2, he2, v, hv, hne, hnf⟩
                  · rw [if_neg hfl]

theorem parse_costmap_go_inf :
    ∀ (entries : List CostEntry) (acc m : List (String × ℚ)) (a : String),
      parse_costmap_go entries acc = some m →
      (∀ e ∈ entries, ∀ a2, e.agent = some a2 → a2 = a →
        ∃ v, e.value = some v ∧ lowerAscii v = "inf") →
      ((∃ e ∈ entries, e.agent = some a) ∨ lookupC acc a = some 2147483647) →
      lookupC m a = some 2147483647 := by
  intro entries
  induction entries with
  | nil =>
      intro acc m a hm hall hex
      cases hm
      rcases hex with ⟨e, he, _⟩ | hacc
      · cases he
      · exact hacc
  | cons e rest ih =>
      intro acc m a hm hall hex
      obtain ⟨ag, val⟩ := e
      cases ag with
      | none => cases hm
      | some a2 =>
          cases val with
          | none => cases hm
          | some v0 =>
              rw [parse_costmap_go] at hm
              by_cases hif : lowerAscii v0 = "inf"
              · rw [if_pos hif] at hm
                by_cases ha2 : a2 = a
                · subst ha2
                  refine ih (upsert acc a2 2147483647) m a2 hm ?_ (Or.inr ?_)
                  · intro e2 he2 a3 ha3 ha3a
                    exact hall e2 (List.mem_cons_of_mem _ he2) a3 ha3 ha3a
                  · exact lookupC_upsert_self acc a2 2147483647
                · refine ih (upsert acc a2 2147483647) m a hm ?_ ?_
                  · intro e2 he2 a3 ha3 ha3a
                    exact hall e2 (List.mem_cons_of_mem _ he2) a3 ha3 ha3a
                  · rcases hex with ⟨e2, he2, hag2⟩ | hacc
                    · rw [List.mem_cons] at he2
                      rcases he2 with he2 | he2
                      · rw [he2] at hag2
                        cases hag2
                        exact absurd rfl ha2
                      · exact Or.inl ⟨e2, he2, hag2⟩
                    · exact Or.inr (by rw [lookupC_upsert_other acc a2 a _ ha2]; exact hacc)
              · rw [if_neg hif] at hm
                have ha2 : a2 ≠ a := by
                  intro ha2
                  obtain ⟨v, hv, hvinf⟩ := hall ⟨some a2, some v0⟩ (by simp) a2 rfl ha2
                  cases hv
                  exact hif hvinf
                by_cases hfl : is_float (lowerAscii v0) = true
                · rw [if_pos hfl] at hm
                  refine ih (upsert acc a2 (ratOfFloatLit (lowerAscii v0))) m a hm ?_ ?_
                  · intro e2 he2 a3 ha3 ha3a
                    exact hall e2 (List.mem_cons_of_mem _ he2) a3 ha3 ha3a
                  · rcases hex with ⟨e2, he2, hag2⟩ | hacc
                    · rw [List.mem_cons] at he2
                      rcases he2 with he2 | he2
                      · rw [he2] at hag2
                        cases hag2
                        exact absurd rfl ha2
                      · exact Or.inl ⟨e2, he2, hag2⟩
                    · exact Or.inr (by rw [lookupC_upsert_other acc a2 a _ ha2]; exact hacc)
                · rw [if_neg hfl] at hm
                  cases hm

/-- C3 (amended): a `<cost>` value that is neither (case-insensitively)
`inf` nor accepted by the float recognizer makes `parse_costmap` fail
(return no cost map); a value `inf` makes it record `INT_MAX` =
2147483647 for that agent — a finite double, not `+∞`. -/
theorem parse_costmap_amended :
    (∀ entries : List CostEntry,
      (∃ e ∈ entries, ∃ v, e.value = some v ∧ lowerAscii v ≠ "inf" ∧
        is_float (lowerAscii v) = false) →
      parse_costmap entries = none) ∧
    (∀ (entries : List CostEntry) (m : List (String × ℚ)) (a : String),
      parse_costmap entries = some m →
      (∀ e ∈ entries, ∀ a2, e.agent = some a2 → a2 = a →
        ∃ v, e.value = some v ∧ lowerAscii v = "inf") →
      (∃ e ∈ entries, e.agent = some a) →
      lookupC m a = some 2147483647) := by
  constructor
  · intro entries h
    exact parse_costmap_go_bad entries [] h
  · intro entries m a hm hall hex
    exact parse_costmap_go_inf entries [] m a hm hall (Or.inl hex)

/-- C3 (counterexample): `value="inf"` is recorded as 2147483647, which is
smaller than the finite cost 4·10⁹ recorded for another agent from a
plain numeric attribute — not an upper bound of the cost table. -/
theorem parse_costmap_inf_refuted :
    parse_costmap [⟨some "A", some "inf"⟩, ⟨some "B", some "4000000000"⟩] =
      some [("A", 2147483647), ("B", 4000000000)] ∧
    ¬ ((2147483647 : ℚ) > 4000000000) := by
  constructor
  · decide
  · decide

theorem parse_costmap_amended_witness :
    ((∃ e ∈ [CostEntry.mk (some "A") (some "abc")], ∃ v, e.value = some v ∧
        lowerAscii v ≠ "inf" ∧ is_float (lowerAscii v) = false) ∧
      parse_costmap [CostEntry.mk (some "A") (some "abc")] = none) ∧
    (parse_costmap [CostEntry.mk (some "A") (some "Inf")] =
        some [("A", 2147483647)] ∧
      (∀ e ∈ [CostEntry.mk (some "A") (some "Inf")], ∀ a2, e.agent = some a2 →
        a2 = "A" → ∃ v, e.value = some v ∧ lowerAscii v = "inf") ∧
      (∃ e ∈ [CostEntry.mk (some "A") (some "Inf")], e.agent = some "A") ∧
      lookupC [("A", 2147483647)] "A" = some 2147483647) := by
  refine ⟨⟨?_, ?_⟩, ?_, ?_, ?_, ?_⟩

  · exact ⟨⟨some "A", some "abc"⟩, by simp, "abc", rfl, by decide, by decide⟩
  · exact parse_costmap_amended.1 [⟨some "A", some "abc"⟩]
      ⟨⟨some "A", some "abc"⟩, by simp, "abc", rfl, by decide, by decide⟩
  · decide
  · intro e he a2 ha2 ha2a
    rw [List.mem_singleton] at he
    rw [he]
    exact ⟨"Inf", rfl, by decide⟩
  · exact ⟨⟨some "A", some "Inf"⟩, by simp, rfl⟩
  · exact parse_costmap_amended.2 [⟨some "A", some "Inf"⟩] [("A", 2147483647)] "A"
      (by decide)
      (by
        intro e he a2 ha2 ha2a
        rw [List.mem_singleton] at he
        rw [he] at ha2 ⊢
        exact ⟨"Inf", rfl, by decide⟩)
      ⟨⟨some "A", some "Inf"⟩, by simp, rfl⟩

/-- The `NodeType` enumeration of `types.hpp`. -/
inductive NodeType
  | ACTION
  | SUBASSEMBLY
  | INTERACTION
  | INTERASSEMBLY
  deriving DecidableEq, Repr

/-- The typed assembly graph as `validate_graph` sees it: node ids, their
types, and the directed edges. -/
structure TypedGraph where
  nodes : List Nat
  ntype : Nat → NodeType
  edges : List (Nat × Nat)

/-- `graph.getPredecessorNodes`.  Modelled from the spec: the predecessors
of `v` are the sources of the edges entering `v`. -/
def getPredecessorNodes (G : TypedGraph) (v : Nat) : List Nat :=
  (G.edges.filter (fun e => e.2 == v)).map Prod.fst

/-- `graph.getSuccessorNodes`.  Modelled from the spec: the successors of
`v` are the destinations of the edges leaving `v`. -/
def getSuccessorNodes (G : TypedGraph) (v : Nat) : List Nat :=
  (G.edges.filter (fun e => e.1 == v)).map Prod.snd

/-- One adjacency check of `IoXml::validate_graph`: an error is raised when
the node is an ACTION and the neighbour is not a SUBASSEMBLY, or the node
is a SUBASSEMBLY and the neighbour is not an ACTION (the same two tests are
run against predecessors and successors). -/
def adjacentOk (G : TypedGraph) (v other : Nat) : Bool :=
  !((G.ntype v == NodeType.ACTION) && !(G.ntype other == NodeType.SUBASSEMBLY)) &&
  !((G.ntype v == NodeType.SUBASSEMBLY) && !(G.ntype other == NodeType.ACTION))

/-- `IoXml::validate_graph`: scan every node's predecessors and successors;
`true` means the scan raised no error (return value 0). -/
def validate_graph (G : TypedGraph) : Bool :=
  G.nodes.all (fun v =>
    ((getPredecessorNodes G v).all (fun p => adjacentOk G v p)) &&
    ((getSuccessorNodes G v).all (fun s => adjacentOk G v s)))

/-- Two INTERACTION nodes joined by an edge. -/
def interGraph : TypedGraph :=
  { nodes := [1, 2], ntype := fun _ => NodeType.INTERACTION, edges := [(1, 2)] }

/-- C5 (counterexample): `validate_graph` accepts a graph whose only edge
joins two INTERACTION nodes — an edge between nodes of the same kind that
is neither SUBASSEMBLY→ACTION nor ACTION→SUBASSEMBLY, because the scan
only raises errors at ACTION and SUBASSEMBLY endpoints. -/
theorem validate_graph_same_kind_refuted :
    validate_graph interGraph = true ∧
    (1, 2) ∈ interGraph.edges ∧
    interGraph.ntype 1 = interGraph.ntype 2 ∧
    ¬ (interGraph.ntype 1 = NodeType.SUBASSEMBLY ∧
        interGraph.ntype 2 = NodeType.ACTION) ∧
    ¬ (interGraph.ntype 1 = NodeType.ACTION ∧
        interGraph.ntype 2 = NodeType.SUBASSEMBLY) := by
  decide

/-- C5 (amended): when `validate_graph` reports success, every edge with an
ACTION or SUBASSEMBLY endpoint (both endpoints being graph nodes) runs
SUBASSEMBLY→ACTION or ACTION→SUBASSEMBLY; edges joining INTERACTION or
INTERASSEMBLY nodes are not examined. -/
theorem validate_graph_alternation_amended (G : TypedGraph) (u v : Nat)
    (hval : validate_graph G = true) (he : (u, v) ∈ G.edges)
    (hu : u ∈ G.nodes) (hv : v ∈ G.nodes) :
    (G.ntype u = NodeType.ACTION → G.ntype v = NodeType.SUBASSEMBLY) ∧
    (G.ntype u = NodeType.SUBASSEMBLY → G.ntype v = NodeType.ACTION) ∧
    (G.ntype v = NodeType.ACTION → G.ntype u = NodeType.SUBASSEMBLY) ∧
    (G.ntype v = NodeType.SUBASSEMBLY → G.ntype u = NodeType.ACTION) := by
  rw [validate_graph, List.all_eq_true] at hval
  have hsucc : adjacentOk G u v = true := by
    have h1 := hval u hu
    rw [Bool.and_eq_true, List.all_eq_true, List.all_eq_true] at h1
    apply h1.2
    rw [getSuccessorNodes, List.mem_map]
    exact ⟨(u, v), by rw [List.mem_filter]; exact ⟨he, by simp⟩, rfl⟩
  have hpred : adjacentOk G v u = true := by
    have h2 := hval v hv
    rw [Bool.and_eq_true, List.all_eq_true, List.all_eq_true] at h2
    apply h2.1
    rw [getPredecessorNodes, List.mem_map]
    exact ⟨(u, v), by rw [List.mem_filter]; exact ⟨he, by simp⟩, rfl⟩
  rw [adjacentOk, Bool.and_eq_true] at hsucc hpred
  refine ⟨?_, ?_, ?_, ?_⟩
  · intro hA
    have := hsucc.1
    rw [hA] at this
    simp at this
    exact this
  · intro hS
    have := hsucc.2
    rw [hS] at this
    simp at this
    exact this
  · intro hA
    have := hpred.1
    rw [hA] at this
    simp at this
    exact this
  · intro hS
    have := hpred.2
    rw [hS] at this
    simp at this
    exact this

/-- A well-formed SUBASSEMBLY→ACTION edge. -/
def andOrGraph : TypedGraph :=
  { nodes := [1, 2],
    ntype := fun v => if v = 1 then NodeType.SUBASSEMBLY else NodeType.ACTION,
    edges := [(1, 2)] }

theorem validate_graph_alternation_amended_witness :
    (validate_graph andOrGraph = true ∧ (1, 2) ∈ andOrGraph.edges ∧
      1 ∈ andOrGraph.nodes ∧ 2 ∈ andOrGraph.nodes) ∧
    ((andOrGraph.ntype 1 = NodeType.ACTION → andOrGraph.ntype 2 = NodeType.SUBASSEMBLY) ∧
     (andOrGraph.ntype 1 = NodeType.SUBASSEMBLY → andOrGraph.ntype 2 = NodeType.ACTION) ∧
     (andOrGraph.ntype 2 = NodeType.ACTION → andOrGraph.ntype 1 = NodeType.SUBASSEMBLY) ∧
     (andOrGraph.ntype 2 = NodeType.SUBASSEMBLY → andOrGraph.ntype 1 = NodeType.ACTION)) :=
  ⟨⟨by decide, by decide, by decide, by decide⟩,
    validate_graph_alternation_amended andOrGraph 1 2 (by decide) (by decide)
      (by decide) (by decide)⟩

/-- A live `Edge` object of `assemblyPlanner/Source/graph.hpp`: its source
and destination node ids (the payload plays no role in the claims). -/
structure EdgeRec where
  src : Nat
  dst : Nat
  deriving DecidableEq, Repr

/-- A live `Node` object: its payload and its incident-edge pointer lists
(`children` = outgoing, `parents` = incoming), as ids into the edge heap. -/
structure NodeRec where
  data : Nat
  children : List Nat
  parents : List Nat
  deriving DecidableEq, Repr

/-- The `Graph` of `assemblyPlanner/Source/graph.hpp`: `nodes_`
(`unordered_map` id → `Node*`), `edges_` (`vector<Edge*>`).  Edge pointers
are modelled as allocation ids into an explicit heap of live edge objects;
freeing an edge removes its heap cell, so a dangling pointer dereference
(undefined behaviour in the C++) surfaces as a failed lookup. -/
structure CGraph where
  nodes : List (Nat × NodeRec)
  edges : List Nat
  heap : List (Nat × EdgeRec)
  nextEdgeId : Nat
  deriving DecidableEq, Repr

/-- Association lookup (first match). -/
def alookup {β : Type} : List (Nat × β) → Nat → Option β
  | [], _ => none
  | p :: rest, k => if p.1 = k then some p.2 else alookup rest k

/-- Update the (first) entry under a key, if present. -/
def aupdate {β : Type} (f : β → β) : List (Nat × β) → Nat → List (Nat × β)
  | [], _ => []
  | p :: rest, k => if p.1 = k then (p.1, f p.2) :: rest else p :: aupdate f rest k

/-- Remove the entries under a key. -/
def aremove {β : Type} : List (Nat × β) → Nat → List (Nat × β)
  | [], _ => []
  | p :: rest, k => if p.1 = k then aremove rest k else p :: aremove rest k

/-- Does the (live) edge behind a pointer leave node `v`? -/
def edgeSrcIs (heap : List (Nat × EdgeRec)) (v eid : Nat) : Bool :=
  match alookup heap eid with
  | some e => e.src == v
  | none => false

/-- Does the (live) edge behind a pointer enter node `v`? -/
def edgeDstIs (heap : List (Nat × EdgeRec)) (v eid : Nat) : Bool :=
  match alookup heap eid with
  | some e => e.dst == v
  | none => false

/-- Does the edge behind a pointer run from `s` to `d`?  (The comparison
`getSource() == nodes_[nodeSrc] && getDestination() == nodes_[nodeDst]`
of `Graph::findEdge`.) -/
def edgeIs (heap : List (Nat × EdgeRec)) (s d eid : Nat) : Bool :=
  match alookup heap eid with
  | some e => e.src == s && e.dst == d
  | none => false

/-- `Node::addSuccessor`.  Modelled from the spec: `node.hpp` is not among
the sources; per §3 invariant (ii) the successor list holds exactly the
outgoing edges, so insertion appends the new edge pointer. -/
def addSuccessor (n : NodeRec) (eid : Nat) : NodeRec :=
  { n with children := n.children ++ [eid] }

/-- `Node::addPredecessor`.  Modelled from the spec, as `addSuccessor`. -/
def addPredecessor (n : NodeRec) (eid : Nat) : NodeRec :=
  { n with parents := n.parents ++ [eid] }

/-- `Node::removeSuccessor(id)`.  Modelled from the spec: drop from the
successor list the first edge leading to the given node (a dangling entry
never matches — dereferencing it is undefined behaviour in the C++,
unreachable from well-formed states). -/
def removeSuccessor (heap : List (Nat × EdgeRec)) (n : NodeRec) (v : Nat) : NodeRec :=
  { n with children := n.children.eraseP (edgeDstIs heap v) }

/-- `Node::removePredecessor(id)`.  Modelled from the spec, as
`removeSuccessor`. -/
def removePredecessor (heap : List (Nat × EdgeRec)) (n : NodeRec) (v : Nat) : NodeRec :=
  { n with parents := n.parents.eraseP (edgeSrcIs heap v) }

/-- `Graph::insertNode`: allocate a node and `insert` it into the map —
which keeps the old entry when the id is already bound — and return
`nodes_.size() - 1`. -/
def insertNode (G : CGraph) (id data : Nat) : CGraph × Nat :=
  if (alookup G.nodes id).isSome then (G, G.nodes.length - 1)
  else ({ G with nodes := G.nodes ++ [(id, ⟨data, [], []⟩)] }, G.nodes.length)

/-- `Graph::insertEdge`: after checking both endpoints exist (a missing one
throws, modelled as `none`), allocate the edge, push it onto `edges_`,
register it with both endpoint nodes, and return `edges_.size()` — the
size after the push. -/
def insertEdge (G : CGraph) (srcId dstId : Nat) : Option (CGraph × Nat) :=
  if (alookup G.nodes srcId).isSome = false then none
  else if (alookup G.nodes dstId).isSome = false then none
  else
    let eid := G.nextEdgeId
    let G1 : CGraph := { G with heap := G.heap ++ [(eid, ⟨srcId, dstId⟩)],
                                edges := G.edges ++ [eid],
                                nextEdgeId := eid + 1 }
    let G2 : CGraph := { G1 with nodes := aupdate (fun n => addSuccessor n eid) G1.nodes srcId }
    let G3 : CGraph := { G2 with nodes := aupdate (fun n => addPredecessor n eid) G2.nodes dstId }
    some (G3, G.edges.length + 1)

/-- Index of the first list element satisfying a predicate (the linear
scans of `Graph::findEdge` and `Graph::findEdgeIndexHelper`). -/
def scanIdx (p : Nat → Bool) : List Nat → Option Nat
  | [] => none
  | x :: xs => if p x then some 0 else (scanIdx p xs).map (· + 1)

/-- The edge scan of `Graph::findEdge`. -/
def findEdgeIdx (G : CGraph) (srcId dstId : Nat) : Option Nat :=
  scanIdx (edgeIs G.heap srcId dstId) G.edges

/-- `Graph::findEdge`: missing endpoints or a missing edge yield
`(false, _)` — in the not-found case the C++ returns an uninitialized
`edge_index`, modelled as `none`. -/
def findEdge (G : CGraph) (srcId dstId : Nat) : Bool × Option Nat :=
  if (alookup G.nodes srcId).isSome = false then (false, none)
  else if (alookup G.nodes dstId).isSome = false then (false, none)
  else
    match findEdgeIdx G srcId dstId with
    | some j => (true, some j)
    | none => (false, none)

/-- `Graph::eraseEdge`: find the first matching edge, detach it from both
endpoint nodes, free it and erase it from `edges_`. -/
def eraseEdge (G : CGraph) (srcId dstId : Nat) : Bool × CGraph :=
  if (alookup G.nodes srcId).isSome = false then (false, G)
  else if (alookup G.nodes dstId).isSome = false then (false, G)
  else
    match findEdgeIdx G srcId dstId with
    | none => (false, G)
    | some j =>
        let eid := G.edges.getD j 0
        let G1 : CGraph :=
          { G with nodes := aupdate (fun n => removeSuccessor G.heap n dstId) G.nodes srcId }
        let G2 : CGraph :=
          { G1 with nodes := aupdate (fun n => removePredecessor G1.heap n srcId) G1.nodes dstId }
        (true, { G2 with edges := G2.edges.eraseIdx j, heap := aremove G2.heap eid })

/-- One iteration of the predecessor loop of `Graph::eraseNode`: read the
edge (`none` = dangling pointer, undefined behaviour), detach it from its
source node (unless the source is the dying node itself, whose object is
about to be freed), locate it in `edges_` (`none` = `findEdgeIndexHelper`
leaves its index uninitialized), erase and free it. -/
def eraseIncidentPred (v : Nat) (M : CGraph) (eid : Nat) : Option CGraph :=
  match alookup M.heap eid with
  | none => none
  | some e =>
      let M1 : CGraph :=
        if e.src = v then M
        else { M with nodes := aupdate (fun n => removeSuccessor M.heap n v) M.nodes e.src }
      match scanIdx (fun x => x == eid) M1.edges with
      | none => none
      | some j => some { M1 with edges := M1.edges.eraseIdx j, heap := aremove M1.heap eid }

/-- One iteration of the successor loop of `Graph::eraseNode`, mirroring
`eraseIncidentPred` on the destination side. -/
def eraseIncidentSucc (v : Nat) (M : CGraph) (eid : Nat) : Option CGraph :=
  match alookup M.heap eid with
  | none => none
  | some e =>
      let M1 : CGraph :=
        if e.dst = v then M
        else { M with nodes := aupdate (fun n => removePredecessor M.heap n v) M.nodes e.dst }
      match scanIdx (fun x => x == eid) M1.edges with
      | none => none
      | some j => some { M1 with edges := M1.edges.eraseIdx j, heap := aremove M1.heap eid }

/-- `Graph::eraseNode`: a missing id returns `false`; otherwise remove the
node from the map, then walk copies of its predecessor and successor edge
lists, erasing every incident edge. -/
def eraseNode (G : CGraph) (v : Nat) : Option (Bool × CGraph) :=
  match alookup G.nodes v with
  | none => some (false, G)
  | some nrec => do
      let G1 : CGraph := { G with nodes := aremove G.nodes v }
      let G2 ← nrec.parents.foldlM (eraseIncidentPred v) G1
      let G3 ← nrec.children.foldlM (eraseIncidentSucc v) G2
      pure (true, G3)

/-- The four mutating operations of the graph interface. -/
inductive GraphOp
  | insNode (id data : Nat)
  | insEdge (src dst : Nat)
  | delNode (id : Nat)
  | delEdge (src dst : Nat)
  deriving DecidableEq, Repr

/-- Apply one operation; `none` propagates undefined behaviour inside
`eraseNode`.  A throwing `insertEdge` leaves the graph unchanged (the C++
throws before any mutation). -/
def applyOp (G : CGraph) : GraphOp → Option CGraph
  | GraphOp.insNode id data => some (insertNode G id data).1
  | GraphOp.insEdge s d =>
      match insertEdge G s d with
      | none => some G
      | some p => some p.1
  | GraphOp.delNode id => (eraseNode G id).map Prod.snd
  | GraphOp.delEdge s d => some (eraseEdge G s d).2

/-- The freshly constructed graph. -/
def newGraph : CGraph := { nodes := [], edges := [], heap := [], nextEdgeId := 0 }

/-- Run a finite operation sequence from the empty graph. -/
def runOps (ops : List GraphOp) : Option CGraph :=
  ops.foldlM applyOp newGraph

theorem alookup_mem {β : Type} :
    ∀ (m : List (Nat × β)) (k : Nat) (b : β), alookup m k = some b → (k, b) ∈ m := by
  intro m
  induction m with
  | nil => intro k b h; cases h
  | cons p rest ih =>
      intro k b h
      rw [alookup] at h
      by_cases hp : p.1 = k
      · rw [if_pos hp] at h
        cases h
        rw [← hp]
        exact List.mem_cons_self _ _
      · rw [if_neg hp] at h
        exact List.mem_cons_of_mem _ (ih k b h)

theorem alookup_isSome_iff {β : Type} :
    ∀ (m : List (Nat × β)) (k : Nat),
      (alookup m k).isSome = true ↔ k ∈ m.map Prod.fst := by
  intro m
  induction m with
  | nil => intro k; simp [alookup]
  | cons p rest ih =>
      intro k
      rw [alookup]
      by_cases hp : p.1 = k
      · rw [if_pos hp]
        simp [hp]
      · rw [if_neg hp]
        rw [List.map_cons, List.mem_cons]
        rw [ih]
        constructor
        · intro h; exact Or.inr h
        · intro h
          rcases h with h | h
          · exact absurd h.symm hp
          · exact h

theorem alookup_append_left {β : Type} :
    ∀ (m1 m2 : List (Nat × β)) (k : Nat) (b : β), alookup m1 k = some b →
      alookup (m1 ++ m2) k = some b := by
  intro m1 m2 k b h
  induction m1 with
  | nil => cases h
  | cons p rest ih =>
      rw [alookup] at h
      rw [List.cons_append, alookup]
      by_cases hp : p.1 = k
      · rw [if_pos hp] at h ⊢; exact h
      · rw [if_neg hp] at h ⊢; exact ih h

theorem alookup_append_right {β : Type} :
    ∀ (m1 m2 : List (Nat × β)) (k : Nat), alookup m1 k = none →
      alookup (m1 ++ m2) k = alookup m2 k := by
  intro m1 m2 k h
  induction m1 with
  | nil => rfl
  | cons p rest ih =>
      rw [alookup] at h
      rw [List.cons_append, alookup]
      by_cases hp : p.1 = k
      · rw [if_pos hp] at h; cases h
      · rw [if_neg hp] at h ⊢; exact ih h

theorem aupdate_keys {β : Type} (f : β → β) :
    ∀ (m : List (Nat × β)) (k : Nat),
      (aupdate f m k).map Prod.fst = m.map Prod.fst := by
  intro m k
  induction m with
  | nil => rfl
  | cons p rest ih =>
      rw [aupdate]
      by_cases hp : p.1 = k
      · rw [if_pos hp]; simp
      · rw [if_neg hp]; simp [ih]

theorem alookup_aupdate_self {β : Type} (f : β → β) :
    ∀ (m : List (Nat × β)) (k : Nat),
      alookup (aupdate f m k) k = (alookup m k).map f := by
  intro m k
  induction m with
  | nil => rfl
  | cons p rest ih =>
      rw [aupdate]
      by_cases hp : p.1 = k
      · rw [if_pos hp]
        simp [alookup, hp]
      · rw [if_neg hp]
        simp only [alookup, if_neg hp]
        exact ih

theorem alookup_aupdate_other {β : Type} (f : β → β) :
    ∀ (m : List (Nat × β)) (k k2 : Nat), k ≠ k2 →
      alookup (aupdate f m k) k2 = alookup m k2 := by
  intro m k k2 hne
  induction m with
  | nil => rfl
  | cons p rest ih =>
      rw [aupdate]
      by_cases hp : p.1 = k
      · rw [if_pos hp]
        have hk2 : ¬ (p.1 = k2) := by rw [hp]; exact hne
        simp [alookup, hk2]
      · rw [if_neg hp]
        simp only [alookup]
        by_cases hp2 : p.1 = k2
        · rw [if_pos hp2, if_pos hp2]
        · rw [if_neg hp2, if_neg hp2]
          exact ih

theorem mem_aupdate_nodup {β : Type} (f : β → β) :
    ∀ (m : List (Nat × β)) (k : Nat) (q : Nat × β),
      (m.map Prod.fst).Nodup → q ∈ aupdate f m k →
      (q ∈ m ∧ q.1 ≠ k) ∨ (∃ b, alookup m k = some b ∧ q = (k, f b)) := by
  intro m
  induction m with
  | nil => intro k q _ hq; cases hq
  | cons p rest ih =>
      intro k q hnd hq
      rw [List.map_cons, List.nodup_cons] at hnd
      rw [aupdate] at hq
      by_cases hp : p.1 = k
      · rw [if_pos hp] at hq
        rw [List.mem_cons] at hq
        rcases hq with rfl | hq
        · exact Or.inr ⟨p.2, by rw [alookup, if_pos hp], by rw [hp]⟩
        · left
          refine ⟨List.mem_cons_of_mem _ hq, ?_⟩
          intro hqk
          apply hnd.1
          rw [hp, ← hqk]
          exact List.mem_map_of_mem Prod.fst hq
      · rw [if_neg hp] at hq
        rw [List.mem_cons] at hq
        rcases hq with rfl | hq
        · exact Or.inl ⟨List.mem_cons_self _ _, fun hc => hp hc⟩
        · rcases ih k q hnd.2 hq with ⟨hmem, hne⟩ | ⟨b, hb, rfl⟩
          · exact Or.inl ⟨List.mem_cons_of_mem _ hmem, hne⟩
          · exact Or.inr ⟨b, by rw [alookup, if_neg hp]; exact hb, rfl⟩

theorem mem_aremove {β : Type} :
    ∀ (m : List (Nat × β)) (k : Nat) (q : Nat × β),
      q ∈ aremove m k ↔ q ∈ m ∧ q.1 ≠ k := by
  intro m k q
  induction m with
  | nil => simp [aremove]
  | cons p rest ih =>
      rw [aremove]
      by_cases hp : p.1 = k
      · rw [if_pos hp, ih, List.mem_cons]
        constructor
        · intro h; exact ⟨Or.inr h.1, h.2⟩
        · intro h
          rcases h.1 with rfl | hm
          · exact absurd hp h.2
          · exact ⟨hm, h.2⟩
      · rw [if_neg hp, List.mem_cons, List.mem_cons]
        constructor
        · intro h
          rcases h with rfl | h
          · exact ⟨Or.inl rfl, hp⟩
          · rw [ih] at h
            exact ⟨Or.inr h.1, h.2⟩
        · intro h
          rcases h.1 with rfl | hm
          · exact Or.inl rfl
          · exact Or.inr (by rw [ih]; exact ⟨hm, h.2⟩)

theorem aremove_keys {β : Type} :
    ∀ (m : List (Nat × β)) (k : Nat),
      (aremove m k).map Prod.fst = (m.map Prod.fst).filter (fun x => !(x == k)) := by
  intro m k
  induction m with
  | nil => rfl
  | cons p rest ih =>
      rw [aremove, List.map_cons, List.filter_cons]
      by_cases hp : p.1 = k
      · rw [if_pos hp]
        have h1 : (!(p.1 == k)) = false := by simp [hp]
        rw [h1, if_neg (by simp)]
        exact ih
      · rw [if_neg hp]
        have h1 : (!(p.1 == k)) = true := by simp [hp]
        rw [h1, if_pos rfl, List.map_cons, ih]

theorem alookup_aremove_other {β : Type} :
    ∀ (m : List (Nat × β)) (k k2 : Nat), k ≠ k2 →
      alookup (aremove m k) k2 = alookup m k2 := by
  intro m k k2 hne
  induction m with
  | nil => rfl
  | cons p rest ih =>
      rw [aremove]
      by_cases hp : p.1 = k
      · rw [if_pos hp, alookup, if_neg (by rw [hp]; exact hne)]
        exact ih
      · rw [if_neg hp, alookup, alookup]
        by_cases hp2 : p.1 = k2
        · rw [if_pos hp2, if_pos hp2]
        · rw [if_neg hp2, if_neg hp2]
          exact ih

theorem alookup_aremove_self {β : Type} :
    ∀ (m : List (Nat × β)) (k : Nat), alookup (aremove m k) k = none := by
  intro m k
  induction m with
  | nil => rfl
  | cons p rest ih =>
      rw [aremove]
      by_cases hp : p.1 = k
      · rw [if_pos hp]; exact ih
      · rw [if_neg hp, alookup, if_neg hp]; exact ih

theorem scanIdx_eq_none_iff (p : Nat → Bool) :
    ∀ l : List Nat, scanIdx p l = none ↔ ∀ x ∈ l, p x = false := by
  intro l
  induction l with
  | nil => simp [scanIdx]
  | cons x xs ih =>
      rw [scanIdx]
      by_cases hx : p x = true
      · rw [if_pos hx]
        simp [hx]
      · have hx2 : p x = false := by
          cases hb : p x
          · rfl
          · exact absurd hb hx
        rw [if_neg hx]
        constructor
        · intro h y hy
          rcases List.mem_cons.mp hy with rfl | hy
          · exact hx2
          · have hxs : scanIdx p xs = none := by
              cases hs : scanIdx p xs
              · rfl
              · rw [hs] at h; cases h
            exact ih.mp hxs y hy
        · intro h
          have : scanIdx p xs = none := ih.mpr (fun y hy => h y (List.mem_cons_of_mem x hy))
          rw [this]
          rfl

theorem scanIdx_some_decomp (p : Nat → Bool) :
    ∀ (l : List Nat) (j : Nat), scanIdx p l = some j →
      ∃ x l1 l2, l = l1 ++ x :: l2 ∧ p x = true ∧ (∀ y ∈ l1, p y = false) ∧
        j = l1.length ∧ l.eraseIdx j = l1 ++ l2 ∧ l.getD j 0 = x := by
  intro l
  induction l with
  | nil => intro j h; cases h
  | cons a xs ih =>
      intro j h
      rw [scanIdx] at h
      by_cases ha : p a = true
      · rw [if_pos ha] at h
        cases h
        exact ⟨a, [], xs, rfl, ha, by simp, rfl, rfl, rfl⟩
      · rw [if_neg ha] at h
        cases hs : scanIdx p xs with
        | none => rw [hs] at h; cases h
        | some j2 =>
            rw [hs] at h
            cases h
            obtain ⟨x, l1, l2, hl, hx, hl1, hj, he, hg⟩ := ih j2 hs
            have ha2 : p a = false := by
              cases hb : p a
              · rfl
              · exact absurd hb ha
            refine ⟨x, a :: l1, l2, by rw [hl]; rfl, hx, ?_, by rw [hj]; rfl, ?_, ?_⟩
            · intro y hy
              rcases List.mem_cons.mp hy with rfl | hy
              · exact ha2
              · exact hl1 y hy
            · rw [List.eraseIdx_cons_succ, he]
              rfl
            · rw [List.getD_cons_succ, hg]

theorem scanIdx_append_none (p : Nat → Bool) :
    ∀ (l1 l2 : List Nat), scanIdx p l1 = none →
      scanIdx p (l1 ++ l2) = (scanIdx p l2).map (· + l1.length) := by
  intro l1 l2 h
  induction l1 with
  | nil => simp
  | cons a xs ih =>
      rw [scanIdx] at h
      by_cases ha : p a = true
      · rw [if_pos ha] at h; cases h
      · rw [if_neg ha] at h
        have hxs : scanIdx p xs = none := by
          cases hs : scanIdx p xs
          · rfl
          · rw [hs] at h; cases h
        rw [List.cons_append, scanIdx, if_neg ha, ih hxs]
        cases scanIdx p l2 with
        | none => rfl
        | some j => simp [Nat.add_assoc]

theorem eraseP_filter {α : Type} (q r : α → Bool) :
    ∀ l : List α, (l.filter q).eraseP r = (l.eraseP (fun x => q x && r x)).filter q := by
  intro l
  induction l with
  | nil => rfl
  | cons x xs ih =>
      rw [List.filter_cons]
      by_cases hq : q x = true
      · rw [if_pos hq]
        by_cases hr : r x = true
        · rw [List.eraseP_cons_of_pos hr,
            List.eraseP_cons_of_pos (p := fun x => q x && r x) (by simp [hq, hr])]
        · rw [List.eraseP_cons_of_neg hr,
            List.eraseP_cons_of_neg (p := fun x => q x && r x) (by simp [hr])]
          rw [List.filter_cons, if_pos hq, ih]
      · have hq2 : q x = false := by
          cases hb : q x
          · rfl
          · exact absurd hb hq
        rw [if_neg hq]
        rw [List.eraseP_cons_of_neg (p := fun x => q x && r x) (by simp [hq2])]
        rw [List.filter_cons, if_neg hq, ih]

theorem filter_eraseP_not {α : Type} (q r : α → Bool)
    (hqr : ∀ x, r x = true → q x = false) :
    ∀ l : List α, (l.eraseP r).filter q = l.filter q := by
  intro l
  induction l with
  | nil => rfl
  | cons x xs ih =>
      by_cases hr : r x = true
      · rw [List.eraseP_cons_of_pos hr, List.filter_cons, hqr x hr]
        simp
      · rw [List.eraseP_cons_of_neg hr, List.filter_cons, List.filter_cons]
        by_cases hq : q x = true
        · rw [if_pos hq, if_pos hq, ih]
        · rw [if_neg hq, if_neg hq]
          exact ih

theorem eraseP_first_decomp {α : Type} (r : α → Bool) (x : α) :
    ∀ (l1 l2 : List α), (∀ y ∈ l1, r y = false) → r x = true →
      (l1 ++ x :: l2).eraseP r = l1 ++ l2 := by
  intro l1 l2 h1 hx
  induction l1 with
  | nil => simp [List.eraseP_cons_of_pos hx]
  | cons a xs ih =>
      have ha : r a = false := h1 a (List.mem_cons_self _ _)
      rw [List.cons_append, List.eraseP_cons_of_neg (by simp [ha]), List.cons_append]
      rw [ih (fun y hy => h1 y (List.mem_cons_of_mem a hy))]

theorem filter_head_decomp {α : Type} (q : α → Bool) :
    ∀ (l : List α) (x : α) (ys : List α), l.filter q = x :: ys →
      ∃ l1 l2, l = l1 ++ x :: l2 ∧ (∀ y ∈ l1, q y = false) ∧ q x = true ∧
        ys = l2.filter q := by
  intro l
  induction l with
  | nil => intro x ys h; cases h
  | cons a xs ih =>
      intro x ys h
      rw [List.filter_cons] at h
      by_cases ha : q a = true
      · rw [if_pos ha] at h
        cases h
        exact ⟨[], xs, rfl, by simp, ha, rfl⟩
      · rw [if_neg ha] at h
        obtain ⟨l1, l2, hl, h1, hx, hys⟩ := ih x ys h
        have ha2 : q a = false := by
          cases hb : q a
          · rfl
          · exact absurd hb ha
        refine ⟨a :: l1, l2, by rw [hl]; rfl, ?_, hx, hys⟩
        intro y hy
        rcases List.mem_cons.mp hy with rfl | hy
        · exact ha2
        · exact h1 y hy

theorem alookup_aupdate_isSome {β : Type} (f : β → β) (m : List (Nat × β)) (k0 k : Nat) :
    (alookup (aupdate f m k0) k).isSome = (alookup m k).isSome := by
  by_cases h : k0 = k
  · subst h
    rw [alookup_aupdate_self]
    cases alookup m k0 <;> rfl
  · rw [alookup_aupdate_other f m k0 k h]

/-- Structural well-formedness of the pointer arena: `edges_` and the heap
list the same live edges (in order, without duplicates); node ids are
unique; allocation ids are below the counter; every live edge's endpoints
are live nodes; and every node's incidence lists are exactly the edges of
`edges_` leaving respectively entering it, in `edges_` order. -/
def Wf (G : CGraph) : Prop :=
  G.heap.map Prod.fst = G.edges ∧
  G.edges.Nodup ∧
  (G.nodes.map Prod.fst).Nodup ∧
  (∀ x ∈ G.edges, x < G.nextEdgeId) ∧
  (∀ p ∈ G.heap, (alookup G.nodes p.2.src).isSome = true ∧
                 (alookup G.nodes p.2.dst).isSome = true) ∧
  (∀ p ∈ G.nodes, p.2.children = G.edges.filter (edgeSrcIs G.heap p.1)) ∧
  (∀ p ∈ G.nodes, p.2.parents = G.edges.filter (edgeDstIs G.heap p.1))

instance (G : CGraph) : Decidable (Wf G) := by
  unfold Wf
  infer_instance

/-- C10: `insertNode` on an id that is already bound leaves the graph
unchanged — the stored node keeps its data, the node count is unchanged,
and no edge or incidence list is touched (the C++ `unordered_map::insert`
keeps the existing entry; only the freshly allocated duplicate leaks). -/
theorem insertNode_existing_noop (G : CGraph) (id data : Nat)
    (h : (alookup G.nodes id).isSome = true) :
    (insertNode G id data).1 = G ∧
    alookup (insertNode G id data).1.nodes id = alookup G.nodes id ∧
    (insertNode G id data).1.nodes.length = G.nodes.length ∧
    (insertNode G id data).1.edges = G.edges ∧
    (insertNode G id data).1.heap = G.heap := by
  have h1 : (insertNode G id data).1 = G := by
    rw [insertNode, if_pos h]
  exact ⟨h1, by rw [h1], by rw [h1], by rw [h1], by rw [h1]⟩

/-- Graph with nodes 1 and 2 and no edges, for concrete evaluations. -/
def demoNodes : CGraph := (insertNode (insertNode newGraph 1 7).1 2 8).1

theorem insertNode_existing_noop_witness :
    (alookup demoNodes.nodes 1).isSome = true ∧
    ((insertNode demoNodes 1 99).1 = demoNodes ∧
     alookup (insertNode demoNodes 1 99).1.nodes 1 = alookup demoNodes.nodes 1 ∧
     (insertNode demoNodes 1 99).1.nodes.length = demoNodes.nodes.length ∧
     (insertNode demoNodes 1 99).1.edges = demoNodes.edges ∧
     (insertNode demoNodes 1 99).1.heap = demoNodes.heap) :=
  ⟨by decide, insertNode_existing_noop demoNodes 1 99 (by decide)⟩

/-- C7 (counterexample): on a two-node graph, `insertEdge` returns 1, but
the new edge is stored at index 0 — `findEdge` on the previously edge-free
pair returns index 0, not the returned value. -/
theorem insertEdge_return_refuted :
    (insertEdge demoNodes 1 2).map Prod.snd = some 1 ∧
    (insertEdge demoNodes 1 2).map (fun p => findEdge p.1 1 2) = some (true, some 0) ∧
    (1 : Nat) ≠ 0 := by
  decide

/-- C7 (amended): on a well-formed graph with both endpoints present and no
existing edge between them, `insertEdge` returns `edges_.size()` after the
push — one more than the new edge's index — and `findEdge` subsequently
returns that index, `|edges_| - 1` before the call. -/
theorem insertEdge_returns_new_size (G : CGraph) (s d : Nat) (hwf : Wf G)
    (hs : (alookup G.nodes s).isSome = true)
    (hd : (alookup G.nodes d).isSome = true)
    (hfree : findEdgeIdx G s d = none) :
    ∃ G2, insertEdge G s d = some (G2, G.edges.length + 1) ∧
      findEdge G2 s d = (true, some G.edges.length) := by
  obtain ⟨hkeys, hnodE, hnodN, hbound, hlive, hchild, hpar⟩ := hwf
  have hs2 : ((alookup G.nodes s).isSome = false) = False := by
    rw [hs]; simp
  have hd2 : ((alookup G.nodes d).isSome = false) = False := by
    rw [hd]; simp
  rw [insertEdge, if_neg (by rw [hs2]; exact id), if_neg (by rw [hd2]; exact id)]
  refine ⟨_, rfl, ?_⟩
  have hfresh : alookup G.heap G.nextEdgeId = none := by
    cases hl : alookup G.heap G.nextEdgeId with
    | none => rfl
    | some e =>
        have hmem := alookup_mem G.heap G.nextEdgeId e hl
        have : G.nextEdgeId ∈ G.heap.map Prod.fst :=
          List.mem_map_of_mem Prod.fst hmem
        rw [hkeys] at this
        have := hbound G.nextEdgeId this
        omega
  have hkeysUpd : ∀ k, (alookup (aupdate (fun n => addPredecessor n G.nextEdgeId)
      (aupdate (fun n => addSuccessor n G.nextEdgeId) G.nodes s) d) k).isSome =
        (alookup G.nodes k).isSome := by
    intro k
    rw [alookup_aupdate_isSome, alookup_aupdate_isSome]
  rw [findEdge]
  rw [if_neg (by rw [hkeysUpd s, hs2]; exact id)]
  rw [if_neg (by rw [hkeysUpd d, hd2]; exact id)]
  have htests : ∀ x ∈ G.edges, edgeIs (G.heap ++ [(G.nextEdgeId, ⟨s, d⟩)]) s d x =
      edgeIs G.heap s d x := by
    intro x hx
    have : (alookup G.heap x).isSome = true := by
      rw [alookup_isSome_iff, hkeys]
      exact hx
    cases hl : alookup G.heap x with
    | none => rw [hl] at this; cases this
    | some e =>
        rw [edgeIs, edgeIs, alookup_append_left G.heap _ x e hl, hl]
  have hnone : scanIdx (edgeIs (G.heap ++ [(G.nextEdgeId, ⟨s, d⟩)]) s d) G.edges = none := by
    rw [scanIdx_eq_none_iff]
    intro x hx
    rw [htests x hx]
    have := (scanIdx_eq_none_iff (edgeIs G.heap s d) G.edges).mp hfree
    exact this x hx
  rw [findEdgeIdx]
  have happ := scanIdx_append_none (edgeIs (G.heap ++ [(G.nextEdgeId, ⟨s, d⟩)]) s d)
    G.edges [G.nextEdgeId] hnone
  have hnew : edgeIs (G.heap ++ [(G.nextEdgeId, ⟨s, d⟩)]) s d G.nextEdgeId = true := by
    rw [edgeIs, alookup_append_right G.heap _ G.nextEdgeId hfresh]
    rw [alookup, if_pos rfl]
    simp
  have : scanIdx (edgeIs (G.heap ++ [(G.nextEdgeId, ⟨s, d⟩)]) s d)
      (G.edges ++ [G.nextEdgeId]) = some G.edges.length := by
    rw [happ, scanIdx, if_pos hnew]
    simp
  rw [this]

theorem insertEdge_returns_new_size_witness :
    (Wf demoNodes ∧ (alookup demoNodes.nodes 1).isSome = true ∧
      (alookup demoNodes.nodes 2).isSome = true ∧ findEdgeIdx demoNodes 1 2 = none) ∧
    (∃ G2, insertEdge demoNodes 1 2 = some (G2, demoNodes.edges.length + 1) ∧
      findEdge G2 1 2 = (true, some demoNodes.edges.length)) :=
  ⟨⟨by decide, by decide, by decide, by decide⟩,
    insertEdge_returns_new_size demoNodes 1 2 (by decide) (by decide) (by decide)
      (by decide)⟩

theorem alookup_of_mem_nodup {β : Type} :
    ∀ (m : List (Nat × β)) (p : Nat × β), (m.map Prod.fst).Nodup → p ∈ m →
      alookup m p.1 = some p.2 := by
  intro m
  induction m with
  | nil => intro p _ hp; cases hp
  | cons q rest ih =>
      intro p hnd hp
      rw [List.map_cons, List.nodup_cons] at hnd
      rw [List.mem_cons] at hp
      rcases hp with rfl | hp
      · rw [alookup, if_pos rfl]
      · rw [alookup]
        by_cases hq : q.1 = p.1
        · exfalso
          apply hnd.1
          rw [hq]
          exact List.mem_map_of_mem Prod.fst hp
        · rw [if_neg hq]
          exact ih p hnd.2 hp

theorem edgeDstIs_eq_some (heap : List (Nat × EdgeRec)) (v x : Nat) (e : EdgeRec)
    (h : alookup heap x = some e) : edgeDstIs heap v x = (e.dst == v) := by
  rw [edgeDstIs, h]

theorem edgeSrcIs_eq_some (heap : List (Nat × EdgeRec)) (v x : Nat) (e : EdgeRec)
    (h : alookup heap x = some e) : edgeSrcIs heap v x = (e.src == v) := by
  rw [edgeSrcIs, h]

theorem edgeDstIs_true (heap : List (Nat × EdgeRec)) (v x : Nat)
    (h : edgeDstIs heap v x = true) :
    ∃ e, alookup heap x = some e ∧ e.dst = v := by
  rw [edgeDstIs] at h
  cases hl : alookup heap x with
  | none => rw [hl] at h; cases h
  | some e =>
      rw [hl] at h
      exact ⟨e, rfl, by simpa using h⟩

theorem edgeSrcIs_true (heap : List (Nat × EdgeRec)) (v x : Nat)
    (h : edgeSrcIs heap v x = true) :
    ∃ e, alookup heap x = some e ∧ e.src = v := by
  rw [edgeSrcIs] at h
  cases hl : alookup heap x with
  | none => rw [hl] at h; cases h
  | some e =>
      rw [hl] at h
      exact ⟨e, rfl, by simpa using h⟩

theorem edgeDstIs_congr (h1 h2 : List (Nat × EdgeRec)) (v x : Nat)
    (h : alookup h2 x = alookup h1 x) : edgeDstIs h2 v x = edgeDstIs h1 v x := by
  rw [edgeDstIs, edgeDstIs, h]

theorem edgeSrcIs_congr (h1 h2 : List (Nat × EdgeRec)) (v x : Nat)
    (h : alookup h2 x = alookup h1 x) : edgeSrcIs h2 v x = edgeSrcIs h1 v x := by
  rw [edgeSrcIs, edgeSrcIs, h]

theorem edgeIs_eq_and (heap : List (Nat × EdgeRec)) (s d : Nat) :
    edgeIs heap s d = fun x => edgeSrcIs heap s x && edgeDstIs heap d x := by
  funext x
  rw [edgeIs, edgeSrcIs, edgeDstIs]
  cases alookup heap x with
  | none => rfl
  | some e => rfl

theorem filter_ne_middle :
    ∀ (l1 l2 : List Nat) (x : Nat), (l1 ++ x :: l2).Nodup →
      (l1 ++ x :: l2).filter (fun y => !(y == x)) = l1 ++ l2 := by
  intro l1 l2 x hnd
  rw [List.filter_append, List.filter_cons]
  have hx : (!(x == x)) = false := by simp
  rw [hx, if_neg (by simp)]
  have hmid := List.nodup_middle.mp hnd
  rw [List.nodup_cons] at hmid
  have hx1 : ∀ y ∈ l1, (!(y == x)) = true := by
    intro y hy
    have : y ≠ x := by
      intro hc
      exact hmid.1 (by rw [← hc]; exact List.mem_append_left _ hy)
    simp [this]
  have hx2 : ∀ y ∈ l2, (!(y == x)) = true := by
    intro y hy
    have : y ≠ x := by
      intro hc
      exact hmid.1 (by rw [← hc]; exact List.mem_append_right _ hy)
    simp [this]
  rw [List.filter_eq_self.mpr hx1, List.filter_eq_self.mpr hx2]

theorem eraseIdx_append_len :
    ∀ (l1 l2 : List Nat) (x : Nat), (l1 ++ x :: l2).eraseIdx l1.length = l1 ++ l2 := by
  intro l1
  induction l1 with
  | nil => intro l2 x; rfl
  | cons a xs ih =>
      intro l2 x
      rw [List.cons_append, List.length_cons, List.eraseIdx_cons_succ, ih, List.cons_append]

theorem scanIdx_of_decomp (p : Nat → Bool) :
    ∀ (l1 l2 : List Nat) (x : Nat), (∀ y ∈ l1, p y = false) → p x = true →
      scanIdx p (l1 ++ x :: l2) = some l1.length := by
  intro l1
  induction l1 with
  | nil =>
      intro l2 x _ hx
      rw [List.nil_append, scanIdx, if_pos hx]
      rfl
  | cons a xs ih =>
      intro l2 x h1 hx
      rw [List.cons_append, scanIdx]
      have ha : p a = false := h1 a (List.mem_cons_self _ _)
      rw [if_neg (by rw [ha]; simp)]
      rw [ih l2 x (fun y hy => h1 y (List.mem_cons_of_mem a hy)) hx]
      rfl

/-- Invariant of the predecessor loop of `Graph::eraseNode`, after the dying
node `v` has left the map: `R` is the remaining incoming-edge worklist (the
incoming edges of `v` still stored, in `edges_` order), `C` the captured
outgoing-edge list of `v` (untouched by this loop as long as `v` has no
self-loop), and the rest is well-formedness relative to the shrinking edge
set. -/
structure PredInv (G0 : CGraph) (v : Nat) (C R : List Nat) (M : CGraph) : Prop where
  hkeys : M.heap.map Prod.fst = M.edges
  hnodE : M.edges.Nodup
  hnodN : (M.nodes.map Prod.fst).Nodup
  hvgone : alookup M.nodes v = none
  hnext : M.nextEdgeId = G0.nextEdgeId
  hbound : ∀ x ∈ M.edges, x < M.nextEdgeId
  hR : R = M.edges.filter (edgeDstIs M.heap v)
  hC : C = M.edges.filter (edgeSrcIs M.heap v)
  hnoself : ∀ p ∈ M.heap, ¬(p.2.src = v ∧ p.2.dst = v)
  hlive : ∀ p ∈ M.heap, (p.2.src = v ∨ (alookup M.nodes p.2.src).isSome = true) ∧
      (p.2.dst = v ∨ (alookup M.nodes p.2.dst).isSome = true)
  hchild : ∀ p ∈ M.nodes, p.2.children = M.edges.filter (edgeSrcIs M.heap p.1)
  hpar : ∀ p ∈ M.nodes, p.2.parents = M.edges.filter (edgeDstIs M.heap p.1)

/-- Invariant of the successor loop of `Graph::eraseNode`: all incoming
edges of `v` are already gone, `R` is the remaining outgoing-edge
worklist. -/
structure SuccInv (G0 : CGraph) (v : Nat) (R : List Nat) (M : CGraph) : Prop where
  hkeys : M.heap.map Prod.fst = M.edges
  hnodE : M.edges.Nodup
  hnodN : (M.nodes.map Prod.fst).Nodup
  hvgone : alookup M.nodes v = none
  hnext : M.nextEdgeId = G0.nextEdgeId
  hbound : ∀ x ∈ M.edges, x < M.nextEdgeId
  hR : R = M.edges.filter (edgeSrcIs M.heap v)
  hnodst : ∀ p ∈ M.heap, p.2.dst ≠ v
  hlive : ∀ p ∈ M.heap, (p.2.src = v ∨ (alookup M.nodes p.2.src).isSome = true) ∧
      (alookup M.nodes p.2.dst).isSome = true
  hchild : ∀ p ∈ M.nodes, p.2.children = M.edges.filter (edgeSrcIs M.heap p.1)
  hpar : ∀ p ∈ M.nodes, p.2.parents = M.edges.filter (edgeDstIs M.heap p.1)

theorem eraseIncidentPred_eq (v : Nat) (M : CGraph) (eid : Nat) (e : EdgeRec)
    (he : alookup M.heap eid = some e) (hsrc : e.src ≠ v) (j : Nat)
    (hscan : scanIdx (fun x => x == eid) M.edges = some j) :
    eraseIncidentPred v M eid = some
      { nodes := aupdate (fun n => removeSuccessor M.heap n v) M.nodes e.src,
        edges := M.edges.eraseIdx j, heap := aremove M.heap eid,
        nextEdgeId := M.nextEdgeId } := by
  simp [eraseIncidentPred, he, hsrc, hscan]

theorem eraseIncidentSucc_eq (v : Nat) (M : CGraph) (eid : Nat) (e : EdgeRec)
    (he : alookup M.heap eid = some e) (hdst : e.dst ≠ v) (j : Nat)
    (hscan : scanIdx (fun x => x == eid) M.edges = some j) :
    eraseIncidentSucc v M eid = some
      { nodes := aupdate (fun n => removePredecessor M.heap n v) M.nodes e.dst,
        edges := M.edges.eraseIdx j, heap := aremove M.heap eid,
        nextEdgeId := M.nextEdgeId } := by
  simp [eraseIncidentSucc, he, hdst, hscan]

theorem eraseIncidentPred_heap (v : Nat) (M : CGraph) (eid : Nat) (M2 : CGraph)
    (h : eraseIncidentPred v M eid = some M2) : M2.heap = aremove M.heap eid := by
  rw [eraseIncidentPred] at h
  cases he : alookup M.heap eid with
  | none => rw [he] at h; cases h
  | some e =>
      rw [he] at h
      dsimp only at h
      by_cases hs : e.src = v
      · rw [if_pos hs] at h
        cases hscan : scanIdx (fun x => x == eid) M.edges with
        | none => rw [hscan] at h; cases h
        | some j => rw [hscan] at h; cases h; rfl
      · rw [if_neg hs] at h
        dsimp only at h
        cases hscan : scanIdx (fun x => x == eid) M.edges with
        | none => rw [hscan] at h; cases h
        | some j => rw [hscan] at h; cases h; rfl

theorem eraseIncidentSucc_heap (v : Nat) (M : CGraph) (eid : Nat) (M2 : CGraph)
    (h : eraseIncidentSucc v M eid = some M2) : M2.heap = aremove M.heap eid := by
  rw [eraseIncidentSucc] at h
  cases he : alookup M.heap eid with
  | none => rw [he] at h; cases h
  | some e =>
      rw [he] at h
      dsimp only at h
      by_cases hs : e.dst = v
      · rw [if_pos hs] at h
        cases hscan : scanIdx (fun x => x == eid) M.edges with
        | none => rw [hscan] at h; cases h
        | some j => rw [hscan] at h; cases h; rfl
      · rw [if_neg hs] at h
        dsimp only at h
        cases hscan : scanIdx (fun x => x == eid) M.edges with
        | none => rw [hscan] at h; cases h
        | some j => rw [hscan] at h; cases h; rfl

theorem alookup_aremove (β : Type) (m : List (Nat × β)) (k k2 : Nat) :
    alookup (aremove m k) k2 = if k = k2 then none else alookup m k2 := by
  by_cases h : k = k2
  · rw [if_pos h, h]
    exact alookup_aremove_self m k2
  · rw [if_neg h]
    exact alookup_aremove_other m k k2 h

theorem foldPred_heap_none (v : Nat) :
    ∀ (R : List Nat) (M M2 : CGraph) (k : Nat),
      R.foldlM (eraseIncidentPred v) M = some M2 →
      alookup M.heap k = none → alookup M2.heap k = none := by
  intro R
  induction R with
  | nil =>
      intro M M2 k h hk
      cases h
      exact hk
  | cons x xs ih =>
      intro M M2 k h hk
      rw [List.foldlM_cons] at h
      cases hstep : eraseIncidentPred v M x with
      | none => rw [hstep] at h; cases h
      | some M1 =>
          rw [hstep] at h
          apply ih M1 M2 k h
          rw [eraseIncidentPred_heap v M x M1 hstep, alookup_aremove]
          by_cases hx : x = k
          · rw [if_pos hx]
          · rw [if_neg hx]
            exact hk

theorem foldPred_removes (v : Nat) :
    ∀ (R : List Nat) (M M2 : CGraph) (k : Nat),
      R.foldlM (eraseIncidentPred v) M = some M2 →
      k ∈ R → alookup M2.heap k = none := by
  intro R
  induction R with
  | nil => intro M M2 k _ hk; cases hk
  | cons x xs ih =>
      intro M M2 k h hk
      rw [List.foldlM_cons] at h
      cases hstep : eraseIncidentPred v M x with
      | none => rw [hstep] at h; cases h
      | some M1 =>
          rw [hstep] at h
          rcases List.mem_cons.mp hk with rfl | hk
          · apply foldPred_heap_none v xs M1 M2 k h
            rw [eraseIncidentPred_heap v M k M1 hstep, alookup_aremove, if_pos rfl]
          · exact ih M1 M2 k h hk

theorem foldSucc_none_of_dangling (v : Nat) :
    ∀ (R : List Nat) (M : CGraph) (k : Nat), k ∈ R → alookup M.heap k = none →
      R.foldlM (eraseIncidentSucc v) M = none := by
  intro R
  induction R with
  | nil => intro M k hk; cases hk
  | cons x xs ih =>
      intro M k hk hnone
      rw [List.foldlM_cons]
      rcases List.mem_cons.mp hk with rfl | hk
      · rw [eraseIncidentSucc, hnone]
        rfl
      · cases hstep : eraseIncidentSucc v M x with
        | none => rfl
        | some M1 =>
            have : alookup M1.heap k = none := by
              rw [eraseIncidentSucc_heap v M x M1 hstep, alookup_aremove]
              by_cases hx : x = k
              · rw [if_pos hx]
              · rw [if_neg hx]; exact hnone
            rw [Option.bind_eq_bind, Option.some_bind]
            exact ih M1 k hk this

theorem predStep (G0 : CGraph) (v : Nat) (C : List Nat) (eid : Nat) (R' : List Nat)
    (M : CGraph) (hinv : PredInv G0 v C (eid :: R') M) :
    ∃ M2, eraseIncidentPred v M eid = some M2 ∧ PredInv G0 v C R' M2 := by
  obtain ⟨l1, l2, hl, h1, hx, hR'⟩ :=
    filter_head_decomp (edgeDstIs M.heap v) M.edges eid R' hinv.hR.symm
  obtain ⟨e, he, hedst⟩ := edgeDstIs_true M.heap v eid hx
  have hmem : (eid, e) ∈ M.heap := alookup_mem M.heap eid e he
  have hesrc : e.src ≠ v := by
    intro hc
    exact hinv.hnoself (eid, e) hmem ⟨hc, hedst⟩
  have hnd2 : (l1 ++ eid :: l2).Nodup := by rw [← hl]; exact hinv.hnodE
  have hmid := List.nodup_middle.mp hnd2
  rw [List.nodup_cons] at hmid
  have heid12 : eid ∉ l1 ++ l2 := hmid.1
  have hnd12 : (l1 ++ l2).Nodup := hmid.2
  have hne12 : ∀ x ∈ l1 ++ l2, x ≠ eid := by
    intro x hxm hc
    exact heid12 (hc ▸ hxm)
  have hmem12 : ∀ x ∈ l1 ++ l2, x ∈ M.edges := by
    intro x hxm
    rw [hl]
    rcases List.mem_append.mp hxm with hxm | hxm
    · exact List.mem_append_left _ hxm
    · exact List.mem_append_right _ (List.mem_cons_of_mem _ hxm)
  have hscan : scanIdx (fun x => x == eid) M.edges = some l1.length := by
    rw [hl]
    apply scanIdx_of_decomp
    · intro y hy
      have hyne : y ≠ eid := fun hc =>
        heid12 (hc ▸ List.mem_append_left l2 hy)
      simp [hyne]
    · simp
  have hstep := eraseIncidentPred_eq v M eid e he hesrc l1.length hscan
  have he2 : M.edges.eraseIdx l1.length = l1 ++ l2 := by
    rw [hl, eraseIdx_append_len]
  have hlk2 : ∀ x ∈ l1 ++ l2, alookup (aremove M.heap eid) x = alookup M.heap x := by
    intro x hxm
    exact alookup_aremove_other M.heap eid x (fun hc => hne12 x hxm hc.symm)
  have hcsrc : ∀ w, (l1 ++ l2).filter (edgeSrcIs (aremove M.heap eid) w) =
      (l1 ++ l2).filter (edgeSrcIs M.heap w) := by
    intro w
    apply List.filter_congr
    intro x hxm
    exact edgeSrcIs_congr M.heap (aremove M.heap eid) w x (hlk2 x hxm)
  have hcdst : ∀ w, (l1 ++ l2).filter (edgeDstIs (aremove M.heap eid) w) =
      (l1 ++ l2).filter (edgeDstIs M.heap w) := by
    intro w
    apply List.filter_congr
    intro x hxm
    exact edgeDstIs_congr M.heap (aremove M.heap eid) w x (hlk2 x hxm)
  have hfilter_drop : ∀ q : Nat → Bool, q eid = false →
      M.edges.filter q = (l1 ++ l2).filter q := by
    intro q hq
    rw [hl, List.filter_append, List.filter_cons, hq, List.filter_append]
    simp
  have hsrceid : ∀ w, w ≠ e.src → edgeSrcIs M.heap w eid = false := by
    intro w hw
    rw [edgeSrcIs_eq_some M.heap w eid e he]
    simp
    intro hc
    exact hw hc.symm
  have hdsteid : ∀ w, w ≠ v → edgeDstIs M.heap w eid = false := by
    intro w hw
    rw [edgeDstIs_eq_some M.heap w eid e he]
    rw [hedst]
    simp
    intro hc
    exact hw hc.symm
  refine ⟨_, hstep, ?_⟩
  have hkeys2 : (aremove M.heap eid).map Prod.fst = M.edges.eraseIdx l1.length := by
    rw [aremove_keys, hinv.hkeys, he2, hl, filter_ne_middle l1 l2 eid hnd2]
  have hnodN2 : ((aupdate (fun n => removeSuccessor M.heap n v) M.nodes e.src).map
      Prod.fst).Nodup := by
    rw [aupdate_keys]
    exact hinv.hnodN
  constructor
  case hkeys => exact hkeys2
  case hnodE => rw [he2]; exact hnd12
  case hnodN => exact hnodN2
  case hvgone =>
      rw [alookup_aupdate_other _ _ _ _ hesrc]
      exact hinv.hvgone
  case hnext => exact hinv.hnext
  case hbound =>
      intro x hxm
      rw [he2] at hxm
      exact hinv.hbound x (hmem12 x hxm)
  case hR =>
      rw [he2, hcdst v]
      rw [List.filter_append]
      have hl1nil : l1.filter (edgeDstIs M.heap v) = [] := by
        rw [List.filter_eq_nil_iff]
        intro y hy
        rw [h1 y hy]
        simp
      rw [hl1nil, hR']
      rfl
  case hC =>
      rw [he2, hcsrc v]
      rw [hinv.hC, hfilter_drop (edgeSrcIs M.heap v) (hsrceid v (fun hc => hesrc hc.symm))]
  case hnoself =>
      intro p hp
      exact hinv.hnoself p ((mem_aremove M.heap eid p).mp hp).1
  case hlive =>
      intro p hp
      have hpM := ((mem_aremove M.heap eid p).mp hp).1
      obtain ⟨hs, hd⟩ := hinv.hlive p hpM
      constructor
      · rcases hs with hs | hs
        · exact Or.inl hs
        · exact Or.inr (by rw [alookup_aupdate_isSome]; exact hs)
      · rcases hd with hd | hd
        · exact Or.inl hd
        · exact Or.inr (by rw [alookup_aupdate_isSome]; exact hd)
  case hchild =>
      intro p hp
      have halk : alookup (aupdate (fun n => removeSuccessor M.heap n v) M.nodes e.src)
          p.1 = some p.2 := alookup_of_mem_nodup _ p hnodN2 hp
      by_cases hps : p.1 = e.src
      · rw [hps, alookup_aupdate_self] at halk
        cases hn0 : alookup M.nodes e.src with
        | none => rw [hn0] at halk; cases halk
        | some n0 =>
            rw [hn0, Option.map_some'] at halk
            have hp2 : p.2 = removeSuccessor M.heap n0 v := by
              injection halk with halk
              exact halk.symm
            have hn0spec := hinv.hchild (e.src, n0) (alookup_mem M.nodes e.src n0 hn0)
            rw [hp2, removeSuccessor]
            dsimp only
            rw [hn0spec]
            dsimp only
            rw [eraseP_filter (edgeSrcIs M.heap e.src) (edgeDstIs M.heap v) M.edges]
            have herase : M.edges.eraseP
                (fun x => edgeSrcIs M.heap e.src x && edgeDstIs M.heap v x) = l1 ++ l2 := by
              rw [hl]
              apply eraseP_first_decomp
              · intro y hy
                rw [h1 y hy]
                simp
              · rw [edgeSrcIs_eq_some M.heap e.src eid e he, hx]
                simp
            rw [herase, he2, hps, hcsrc e.src]
      · rw [alookup_aupdate_other _ _ _ _ (fun hc => hps hc.symm)] at halk
        have hspec := hinv.hchild (p.1, p.2) (alookup_mem M.nodes p.1 p.2 halk)
        dsimp only at hspec
        rw [hspec, he2, hcsrc p.1]
        rw [hfilter_drop (edgeSrcIs M.heap p.1) (hsrceid p.1 hps)]
  case hpar =>
      intro p hp
      have halk : alookup (aupdate (fun n => removeSuccessor M.heap n v) M.nodes e.src)
          p.1 = some p.2 := alookup_of_mem_nodup _ p hnodN2 hp
      have hpv : p.1 ≠ v := by
        intro hc
        rw [hc, alookup_aupdate_other _ _ _ _ hesrc, hinv.hvgone] at halk
        cases halk
      by_cases hps : p.1 = e.src
      · rw [hps, alookup_aupdate_self] at halk
        cases hn0 : alookup M.nodes e.src with
        | none => rw [hn0] at halk; cases halk
        | some n0 =>
            rw [hn0, Option.map_some'] at halk
            have hp2 : p.2 = removeSuccessor M.heap n0 v := by
              injection halk with halk
              exact halk.symm
            have hn0spec := hinv.hpar (e.src, n0) (alookup_mem M.nodes e.src n0 hn0)
            rw [hp2, removeSuccessor]
            dsimp only
            dsimp only at hn0spec
            rw [hn0spec, he2, hcdst p.1, hps]
            rw [hfilter_drop (edgeDstIs M.heap e.src) (hdsteid e.src hesrc)]
      · rw [alookup_aupdate_other _ _ _ _ (fun hc => hps hc.symm)] at halk
        have hspec := hinv.hpar (p.1, p.2) (alookup_mem M.nodes p.1 p.2 halk)
        dsimp only at hspec
        rw [hspec, he2, hcdst p.1]
        rw [hfilter_drop (edgeDstIs M.heap p.1) (hdsteid p.1 hpv)]

theorem succStep (G0 : CGraph) (v : Nat) (eid : Nat) (R' : List Nat)
    (M : CGraph) (hinv : SuccInv G0 v (eid :: R') M) :
    ∃ M2, eraseIncidentSucc v M eid = some M2 ∧ SuccInv G0 v R' M2 := by
  obtain ⟨l1, l2, hl, h1, hx, hR'⟩ :=
    filter_head_decomp (edgeSrcIs M.heap v) M.edges eid R' hinv.hR.symm
  obtain ⟨e, he, hesrc⟩ := edgeSrcIs_true M.heap v eid hx
  have hmem : (eid, e) ∈ M.heap := alookup_mem M.heap eid e he
  have hedst : e.dst ≠ v := hinv.hnodst (eid, e) hmem
  have hnd2 : (l1 ++ eid :: l2).Nodup := by rw [← hl]; exact hinv.hnodE
  have hmid := List.nodup_middle.mp hnd2
  rw [List.nodup_cons] at hmid
  have heid12 : eid ∉ l1 ++ l2 := hmid.1
  have hnd12 : (l1 ++ l2).Nodup := hmid.2
  have hne12 : ∀ x ∈ l1 ++ l2, x ≠ eid := by
    intro x hxm hc
    exact heid12 (hc ▸ hxm)
  have hmem12 : ∀ x ∈ l1 ++ l2, x ∈ M.edges := by
    intro x hxm
    rw [hl]
    rcases List.mem_append.mp hxm with hxm | hxm
    · exact List.mem_append_left _ hxm
    · exact List.mem_append_right _ (List.mem_cons_of_mem _ hxm)
  have hscan : scanIdx (fun x => x == eid) M.edges = some l1.length := by
    rw [hl]
    apply scanIdx_of_decomp
    · intro y hy
      have hyne : y ≠ eid := fun hc =>
        heid12 (hc ▸ List.mem_append_left l2 hy)
      simp [hyne]
    · simp
  have hstep := eraseIncidentSucc_eq v M eid e he hedst l1.length hscan
  have he2 : M.edges.eraseIdx l1.length = l1 ++ l2 := by
    rw [hl, eraseIdx_append_len]
  have hlk2 : ∀ x ∈ l1 ++ l2, alookup (aremove M.heap eid) x = alookup M.heap x := by
    intro x hxm
    exact alookup_aremove_other M.heap eid x (fun hc => hne12 x hxm hc.symm)
  have hcsrc : ∀ w, (l1 ++ l2).filter (edgeSrcIs (aremove M.heap eid) w) =
      (l1 ++ l2).filter (edgeSrcIs M.heap w) := by
    intro w
    apply List.filter_congr
    intro x hxm
    exact edgeSrcIs_congr M.heap (aremove M.heap eid) w x (hlk2 x hxm)
  have hcdst : ∀ w, (l1 ++ l2).filter (edgeDstIs (aremove M.heap eid) w) =
      (l1 ++ l2).filter (edgeDstIs M.heap w) := by
    intro w
    apply List.filter_congr
    intro x hxm
    exact edgeDstIs_congr M.heap (aremove M.heap eid) w x (hlk2 x hxm)
  have hfilter_drop : ∀ q : Nat → Bool, q eid = false →
      M.edges.filter q = (l1 ++ l2).filter q := by
    intro q hq
    rw [hl, List.filter_append, List.filter_cons, hq, List.filter_append]
    simp
  have hsrceid : ∀ w, w ≠ v → edgeSrcIs M.heap w eid = false := by
    intro w hw
    rw [edgeSrcIs_eq_some M.heap w eid e he, hesrc]
    simp
    intro hc
    exact hw hc.symm
  have hdsteid : ∀ w, w ≠ e.dst → edgeDstIs M.heap w eid = false := by
    intro w hw
    rw [edgeDstIs_eq_some M.heap w eid e he]
    simp
    intro hc
    exact hw hc.symm
  refine ⟨_, hstep, ?_⟩
  have hkeys2 : (aremove M.heap eid).map Prod.fst = M.edges.eraseIdx l1.length := by
    rw [aremove_keys, hinv.hkeys, he2, hl, filter_ne_middle l1 l2 eid hnd2]
  have hnodN2 : ((aupdate (fun n => removePredecessor M.heap n v) M.nodes e.dst).map
      Prod.fst).Nodup := by
    rw [aupdate_keys]
    exact hinv.hnodN
  constructor
  case hkeys => exact hkeys2
  case hnodE => rw [he2]; exact hnd12
  case hnodN => exact hnodN2
  case hvgone =>
      rw [alookup_aupdate_other _ _ _ _ hedst]
      exact hinv.hvgone
  case hnext => exact hinv.hnext
  case hbound =>
      intro x hxm
      rw [he2] at hxm
      exact hinv.hbound x (hmem12 x hxm)
  case hR =>
      rw [he2, hcsrc v]
      rw [List.filter_append]
      have hl1nil : l1.filter (edgeSrcIs M.heap v) = [] := by
        rw [List.filter_eq_nil_iff]
        intro y hy
        rw [h1 y hy]
        simp
      rw [hl1nil, hR']
      rfl
  case hnodst =>
      intro p hp
      exact hinv.hnodst p ((mem_aremove M.heap eid p).mp hp).1
  case hlive =>
      intro p hp
      have hpM := ((mem_aremove M.heap eid p).mp hp).1
      obtain ⟨hs, hd⟩ := hinv.hlive p hpM
      constructor
      · rcases hs with hs | hs
        · exact Or.inl hs
        · exact Or.inr (by rw [alookup_aupdate_isSome]; exact hs)
      · rw [alookup_aupdate_isSome]
        exact hd
  case hchild =>
      intro p hp
      have halk : alookup (aupdate (fun n => removePredecessor M.heap n v) M.nodes e.dst)
          p.1 = some p.2 := alookup_of_mem_nodup _ p hnodN2 hp
      have hpv : p.1 ≠ v := by
        intro hc
        rw [hc, alookup_aupdate_other _ _ _ _ hedst, hinv.hvgone] at halk
        cases halk
      by_cases hps : p.1 = e.dst
      · rw [hps, alookup_aupdate_self] at halk
        cases hn0 : alookup M.nodes e.dst with
        | none => rw [hn0] at halk; cases halk
        | some n0 =>
            rw [hn0, Option.map_some'] at halk
            have hp2 : p.2 = removePredecessor M.heap n0 v := by
              injection halk with halk
              exact halk.symm
            have hn0spec := hinv.hchild (e.dst, n0) (alookup_mem M.nodes e.dst n0 hn0)
            rw [hp2, removePredecessor]
            dsimp only
            dsimp only at hn0spec
            rw [hn0spec, he2, hcsrc p.1, hps]
            rw [hfilter_drop (edgeSrcIs M.heap e.dst) (hsrceid e.dst hedst)]
      · rw [alookup_aupdate_other _ _ _ _ (fun hc => hps hc.symm)] at halk
        have hspec := hinv.hchild (p.1, p.2) (alookup_mem M.nodes p.1 p.2 halk)
        dsimp only at hspec
        rw [hspec, he2, hcsrc p.1]
        rw [hfilter_drop (edgeSrcIs M.heap p.1) (hsrceid p.1 hpv)]
  case hpar =>
      intro p hp
      have halk : alookup (aupdate (fun n => removePredecessor M.heap n v) M.nodes e.dst)
          p.1 = some p.2 := alookup_of_mem_nodup _ p hnodN2 hp
      by_cases hps : p.1 = e.dst
      · rw [hps, alookup_aupdate_self] at halk
        cases hn0 : alookup M.nodes e.dst with
        | none => rw [hn0] at halk; cases halk
        | some n0 =>
            rw [hn0, Option.map_some'] at halk
            have hp2 : p.2 = removePredecessor M.heap n0 v := by
              injection halk with halk
              exact halk.symm
            have hn0spec := hinv.hpar (e.dst, n0) (alookup_mem M.nodes e.dst n0 hn0)
            rw [hp2, removePredecessor]
            dsimp only
            rw [hn0spec]
            dsimp only
            rw [eraseP_filter (edgeDstIs M.heap e.dst) (edgeSrcIs M.heap v) M.edges]
            have herase : M.edges.eraseP
                (fun x => edgeDstIs M.heap e.dst x && edgeSrcIs M.heap v x) = l1 ++ l2 := by
              rw [hl]
              apply eraseP_first_decomp
              · intro y hy
                rw [h1 y hy]
                simp
              · rw [edgeDstIs_eq_some M.heap e.dst eid e he, hx]
                simp
            rw [herase, he2, hps, hcdst e.dst]
      · rw [alookup_aupdate_other _ _ _ _ (fun hc => hps hc.symm)] at halk
        have hspec := hinv.hpar (p.1, p.2) (alookup_mem M.nodes p.1 p.2 halk)
        dsimp only at hspec
        rw [hspec, he2, hcdst p.1]
        rw [hfilter_drop (edgeDstIs M.heap p.1) (hdsteid p.1 hps)]

theorem predFold (G0 : CGraph) (v : Nat) (C : List Nat) :
    ∀ (R : List Nat) (M : CGraph), PredInv G0 v C R M →
      ∃ M2, R.foldlM (eraseIncidentPred v) M = some M2 ∧ PredInv G0 v C [] M2 := by
  intro R
  induction R with
  | nil => intro M hinv; exact ⟨M, rfl, hinv⟩
  | cons x xs ih =>
      intro M hinv
      obtain ⟨M1, hstep, hinv1⟩ := predStep G0 v C x xs M hinv
      obtain ⟨M2, hfold, hinv2⟩ := ih M1 hinv1
      refine ⟨M2, ?_, hinv2⟩
      rw [List.foldlM_cons, hstep]
      rw [Option.bind_eq_bind, Option.some_bind]
      exact hfold

theorem succFold (G0 : CGraph) (v : Nat) :
    ∀ (R : List Nat) (M : CGraph), SuccInv G0 v R M →
      ∃ M2, R.foldlM (eraseIncidentSucc v) M = some M2 ∧ SuccInv G0 v [] M2 := by
  intro R
  induction R with
  | nil => intro M hinv; exact ⟨M, rfl, hinv⟩
  | cons x xs ih =>
      intro M hinv
      obtain ⟨M1, hstep, hinv1⟩ := succStep G0 v x xs M hinv
      obtain ⟨M2, hfold, hinv2⟩ := ih M1 hinv1
      refine ⟨M2, ?_, hinv2⟩
      rw [List.foldlM_cons, hstep]
      rw [Option.bind_eq_bind, Option.some_bind]
      exact hfold

theorem heap_keys_nodup (M : CGraph) (hkeys : M.heap.map Prod.fst = M.edges)
    (hnodE : M.edges.Nodup) : (M.heap.map Prod.fst).Nodup := by
  rw [hkeys]
  exact hnodE

theorem heap_lookup_of_mem (M : CGraph) (hkeys : M.heap.map Prod.fst = M.edges)
    (hnodE : M.edges.Nodup) (p : Nat × EdgeRec) (hp : p ∈ M.heap) :
    alookup M.heap p.1 = some p.2 ∧ p.1 ∈ M.edges := by
  refine ⟨alookup_of_mem_nodup M.heap p (heap_keys_nodup M hkeys hnodE) hp, ?_⟩
  rw [← hkeys]
  exact List.mem_map_of_mem Prod.fst hp

theorem wf_eraseNode (G : CGraph) (v : Nat) (b : Bool) (G2 : CGraph)
    (hwf : Wf G) (h : eraseNode G v = some (b, G2)) :
    Wf G2 ∧ (b = true →
      (∀ p ∈ G2.heap, p.2.src ≠ v ∧ p.2.dst ≠ v) ∧ alookup G2.nodes v = none) := by
  obtain ⟨hkeys, hnodE, hnodN, hbound, hlive, hchild, hpar⟩ := hwf
  rw [eraseNode] at h
  cases hv : alookup G.nodes v with
  | none =>
      rw [hv] at h
      injection h with h
      injection h with hb hG
      subst hG
      refine ⟨⟨hkeys, hnodE, hnodN, hbound, hlive, hchild, hpar⟩, ?_⟩
      intro htrue
      rw [← hb] at htrue
      cases htrue
  | some nrec =>
      rw [hv] at h
      dsimp only at h
      have hvmem : (v, nrec) ∈ G.nodes := alookup_mem G.nodes v nrec hv
      have hparspec : nrec.parents = G.edges.filter (edgeDstIs G.heap v) := hpar (v, nrec) hvmem
      have hchildspec : nrec.children = G.edges.filter (edgeSrcIs G.heap v) :=
        hchild (v, nrec) hvmem
      cases hf1 : nrec.parents.foldlM (eraseIncidentPred v)
          { G with nodes := aremove G.nodes v } with
      | none =>
          rw [hf1] at h
          cases h
      | some M1 =>
          rw [hf1] at h
          rw [Option.bind_eq_bind, Option.some_bind] at h
          cases hf2 : nrec.children.foldlM (eraseIncidentSucc v) M1 with
          | none =>
              rw [hf2] at h
              cases h
          | some M2 =>
              rw [hf2] at h
              rw [Option.some_bind] at h
              injection h with h
              injection h with hb hG
              subst hG
              subst hb
              by_cases hself : ∃ p ∈ G.heap, p.2.src = v ∧ p.2.dst = v
              · exfalso
                obtain ⟨p, hp, hpsrc, hpdst⟩ := hself
                obtain ⟨hplk, hpedge⟩ := heap_lookup_of_mem G hkeys hnodE p hp
                have hppar : p.1 ∈ nrec.parents := by
                  rw [hparspec, List.mem_filter]
                  refine ⟨hpedge, ?_⟩
                  rw [edgeDstIs_eq_some G.heap v p.1 p.2 hplk, hpdst]
                  simp
                have hpchild : p.1 ∈ nrec.children := by
                  rw [hchildspec, List.mem_filter]
                  refine ⟨hpedge, ?_⟩
                  rw [edgeSrcIs_eq_some G.heap v p.1 p.2 hplk, hpsrc]
                  simp
                have hdangling : alookup M1.heap p.1 = none :=
                  foldPred_removes v nrec.parents _ M1 p.1 hf1 hppar
                have : nrec.children.foldlM (eraseIncidentSucc v) M1 = none :=
                  foldSucc_none_of_dangling v nrec.children M1 p.1 hpchild hdangling
                rw [hf2] at this
                cases this
              · have hinv0 : PredInv G v nrec.children nrec.parents
                    { G with nodes := aremove G.nodes v } := by
                  constructor
                  case hkeys => exact hkeys
                  case hnodE => exact hnodE
                  case hnodN =>
                      rw [aremove_keys]
                      exact List.Nodup.filter _ hnodN
                  case hvgone => exact alookup_aremove_self G.nodes v
                  case hnext => rfl
                  case hbound => exact hbound
                  case hR => exact hparspec
                  case hC => exact hchildspec
                  case hnoself =>
                      intro p hp hc
                      exact hself ⟨p, hp, hc⟩
                  case hlive =>
                      intro p hp
                      obtain ⟨hs, hd⟩ := hlive p hp
                      constructor
                      · by_cases hsv : p.2.src = v
                        · exact Or.inl hsv
                        · exact Or.inr
                            (by rw [alookup_aremove_other G.nodes v _ (fun hc => hsv hc.symm)]
                                exact hs)
                      · by_cases hdv : p.2.dst = v
                        · exact Or.inl hdv
                        · exact Or.inr
                            (by rw [alookup_aremove_other G.nodes v _ (fun hc => hdv hc.symm)]
                                exact hd)
                  case hchild =>
                      intro p hp
                      exact hchild p ((mem_aremove G.nodes v p).mp hp).1
                  case hpar =>
                      intro p hp
                      exact hpar p ((mem_aremove G.nodes v p).mp hp).1
                obtain ⟨M1b, hf1b, hinv1⟩ := predFold G v nrec.children nrec.parents _ hinv0
                rw [hf1] at hf1b
                injection hf1b with hf1b
                subst hf1b
                have hnodstM1 : ∀ p ∈ M1.heap, p.2.dst ≠ v := by
                  intro p hp
                  obtain ⟨hplk, hpedge⟩ := heap_lookup_of_mem M1 hinv1.hkeys hinv1.hnodE p hp
                  have hnil := hinv1.hR
                  have := (List.filter_eq_nil_iff.mp hnil.symm) p.1 hpedge
                  rw [edgeDstIs_eq_some M1.heap v p.1 p.2 hplk] at this
                  simpa using this
                have hinvS : SuccInv G v nrec.children M1 := by
                  constructor
                  case hkeys => exact hinv1.hkeys
                  case hnodE => exact hinv1.hnodE
                  case hnodN => exact hinv1.hnodN
                  case hvgone => exact hinv1.hvgone
                  case hnext => exact hinv1.hnext
                  case hbound => exact hinv1.hbound
                  case hR => exact hinv1.hC
                  case hnodst => exact hnodstM1
                  case hlive =>
                      intro p hp
                      obtain ⟨hs, hd⟩ := hinv1.hlive p hp
                      refine ⟨hs, ?_⟩
                      rcases hd with hd | hd
                      · exact absurd hd (hnodstM1 p hp)
                      · exact hd
                  case hchild => exact hinv1.hchild
                  case hpar => exact hinv1.hpar
                obtain ⟨M2b, hf2b, hinv2⟩ := succFold G v nrec.children M1 hinvS
                rw [hf2] at hf2b
                injection hf2b with hf2b
                subst hf2b
                have hnosrcM2 : ∀ p ∈ M2.heap, p.2.src ≠ v := by
                  intro p hp
                  obtain ⟨hplk, hpedge⟩ := heap_lookup_of_mem M2 hinv2.hkeys hinv2.hnodE p hp
                  have hnil := hinv2.hR
                  have := (List.filter_eq_nil_iff.mp hnil.symm) p.1 hpedge
                  rw [edgeSrcIs_eq_some M2.heap v p.1 p.2 hplk] at this
                  simpa using this
                refine ⟨⟨hinv2.hkeys, hinv2.hnodE, hinv2.hnodN, hinv2.hbound, ?_,
                  hinv2.hchild, hinv2.hpar⟩, ?_⟩
                · intro p hp
                  obtain ⟨hs, hd⟩ := hinv2.hlive p hp
                  refine ⟨?_, hd⟩
                  rcases hs with hs | hs
                  · exact absurd hs (hnosrcM2 p hp)
                  · exact hs
                · intro _
                  refine ⟨?_, hinv2.hvgone⟩
                  intro p hp
                  exact ⟨hnosrcM2 p hp, hinv2.hnodst p hp⟩

theorem alookup_append_isSome {β : Type} (m1 m2 : List (Nat × β)) (k : Nat)
    (h : (alookup m1 k).isSome = true) : (alookup (m1 ++ m2) k).isSome = true := by
  cases hl : alookup m1 k with
  | none => rw [hl] at h; cases h
  | some b => rw [alookup_append_left m1 m2 k b hl]; rfl

theorem wf_newGraph : Wf newGraph := by
  refine ⟨rfl, List.nodup_nil, List.nodup_nil, ?_, ?_, ?_, ?_⟩
  · intro x hx; cases hx
  · intro p hp; cases hp
  · intro p hp; cases hp
  · intro p hp; cases hp

theorem wf_insertNode (G : CGraph) (id data : Nat) (hwf : Wf G) :
    Wf (insertNode G id data).1 := by
  obtain ⟨hkeys, hnodE, hnodN, hbound, hlive, hchild, hpar⟩ := hwf
  rw [insertNode]
  by_cases hex : (alookup G.nodes id).isSome = true
  · rw [if_pos hex]
    exact ⟨hkeys, hnodE, hnodN, hbound, hlive, hchild, hpar⟩
  · rw [if_neg hex]
    have hnm : id ∉ G.nodes.map Prod.fst := by
      intro hc
      exact hex ((alookup_isSome_iff G.nodes id).mpr hc)
  
    have hnolookup : alookup G.nodes id = none := by
      cases hl : alookup G.nodes id with
      | none => rfl
      | some b => exact absurd (by rw [hl]; rfl) hex
    have hfilter_id : ∀ q : Nat → Bool,
        (∀ x ∈ G.edges, q x = false) → G.edges.filter q = [] := by
      intro q hq
      refine List.filter_eq_nil_iff.mpr ?_
      intro a ha hqa
      rw [hq a ha] at hqa
      cases hqa
    refine ⟨hkeys, hnodE, ?_, hbound, ?_, ?_, ?_⟩
    · rw [List.map_append]
      rw [List.nodup_append]
      refine ⟨hnodN, by simp, ?_⟩
      intro a ha hb
      simp at hb
      rw [hb] at ha
      exact hnm ha
    · intro p hp
      obtain ⟨hs, hd⟩ := hlive p hp
      exact ⟨alookup_append_isSome G.nodes _ _ hs, alookup_append_isSome G.nodes _ _ hd⟩
    · intro p hp
      rcases List.mem_append.mp hp with hp | hp
      · exact hchild p hp
      · rw [List.mem_singleton] at hp
        rw [hp]
        dsimp only
        symm
        apply hfilter_id
        intro x hx
        have hxk : x ∈ G.heap.map Prod.fst := by rw [hkeys]; exact hx
        obtain ⟨q, hq, hq1⟩ := List.mem_map.mp hxk
        have hql := alookup_of_mem_nodup G.heap q (by rw [hkeys]; exact hnodE) hq
        rw [hq1] at hql
        rw [edgeSrcIs_eq_some G.heap id x q.2 hql]
        have := (hlive q hq).1
        by_cases hc : q.2.src = id
        · rw [hc, hnolookup] at this
          cases this
        · simp [hc]
    · intro p hp
      rcases List.mem_append.mp hp with hp | hp
      · exact hpar p hp
      · rw [List.mem_singleton] at hp
        rw [hp]
        dsimp only
        symm
        apply hfilter_id
        intro x hx
        have hxk : x ∈ G.heap.map Prod.fst := by rw [hkeys]; exact hx
        obtain ⟨q, hq, hq1⟩ := List.mem_map.mp hxk
        have hql := alookup_of_mem_nodup G.heap q (by rw [hkeys]; exact hnodE) hq
        rw [hq1] at hql
        rw [edgeDstIs_eq_some G.heap id x q.2 hql]
        have := (hlive q hq).2
        by_cases hc : q.2.dst = id
        · rw [hc, hnolookup] at this
          cases this
        · simp [hc]

theorem edgeIs_true (heap : List (Nat × EdgeRec)) (s d x : Nat)
    (h : edgeIs heap s d x = true) :
    ∃ e, alookup heap x = some e ∧ e.src = s ∧ e.dst = d := by
  rw [edgeIs] at h
  cases hl : alookup heap x with
  | none => rw [hl] at h; cases h
  | some e =>
      rw [hl] at h
      rw [Bool.and_eq_true] at h
      exact ⟨e, rfl, by simpa using h.1, by simpa using h.2⟩

theorem wf_insertEdge (G : CGraph) (s d : Nat) (G2 : CGraph) (r : Nat) (hwf : Wf G)
    (h : insertEdge G s d = some (G2, r)) : Wf G2 := by
  obtain ⟨hkeys, hnodE, hnodN, hbound, hlive, hchild, hpar⟩ := hwf
  rw [insertEdge] at h
  by_cases hs : (alookup G.nodes s).isSome = true
  case neg =>
      rw [if_pos (Bool.eq_false_iff.mpr hs)] at h
      cases h
  by_cases hd : (alookup G.nodes d).isSome = true
  case neg =>
      rw [if_neg (by rw [hs]; simp), if_pos (Bool.eq_false_iff.mpr hd)] at h
      cases h
  rw [if_neg (by rw [hs]; simp), if_neg (by rw [hd]; simp)] at h
  dsimp only at h
  rw [Option.some_inj, Prod.mk.injEq] at h
  obtain ⟨hG2, hr⟩ := h
  rw [← hG2]
  have hnotmemE : G.nextEdgeId ∉ G.edges := by
    intro hc
    have := hbound G.nextEdgeId hc
    omega
  have hfresh : alookup G.heap G.nextEdgeId = none := by
    cases hl : alookup G.heap G.nextEdgeId with
    | none => rfl
    | some e =>
        exfalso
        apply hnotmemE
        rw [← hkeys]
        exact List.mem_map_of_mem Prod.fst (alookup_mem G.heap G.nextEdgeId e hl)
  have hagree : ∀ x ∈ G.edges,
      alookup (G.heap ++ [(G.nextEdgeId, EdgeRec.mk s d)]) x = alookup G.heap x := by
    intro x hx
    have : (alookup G.heap x).isSome = true := by
      rw [alookup_isSome_iff, hkeys]
      exact hx
    cases hl : alookup G.heap x with
    | none => rw [hl] at this; cases this
    | some e => exact alookup_append_left G.heap _ x e hl
  have hnew : alookup (G.heap ++ [(G.nextEdgeId, EdgeRec.mk s d)]) G.nextEdgeId =
      some (EdgeRec.mk s d) := by
    rw [alookup_append_right G.heap _ G.nextEdgeId hfresh, alookup, if_pos rfl]
  have hfsingle : ∀ q : Nat → Bool,
      (G.edges ++ [G.nextEdgeId]).filter q =
        G.edges.filter q ++ if q G.nextEdgeId = true then [G.nextEdgeId] else [] := by
    intro q
    rw [List.filter_append]
    congr 1
    rw [List.filter_cons]
    by_cases hq : q G.nextEdgeId = true
    · rw [if_pos hq, if_pos hq]
      rfl
    · rw [if_neg hq, if_neg hq]
      rfl
  have hcongr_src : ∀ w, G.edges.filter
      (edgeSrcIs (G.heap ++ [(G.nextEdgeId, EdgeRec.mk s d)]) w) =
      G.edges.filter (edgeSrcIs G.heap w) := by
    intro w
    apply List.filter_congr
    intro x hx
    exact edgeSrcIs_congr G.heap _ w x (hagree x hx)
  have hcongr_dst : ∀ w, G.edges.filter
      (edgeDstIs (G.heap ++ [(G.nextEdgeId, EdgeRec.mk s d)]) w) =
      G.edges.filter (edgeDstIs G.heap w) := by
    intro w
    apply List.filter_congr
    intro x hx
    exact edgeDstIs_congr G.heap _ w x (hagree x hx)
  have hnodN2 : ((aupdate (fun n => addPredecessor n G.nextEdgeId)
      (aupdate (fun n => addSuccessor n G.nextEdgeId) G.nodes s) d).map Prod.fst).Nodup := by
    rw [aupdate_keys, aupdate_keys]
    exact hnodN
  have hrec : ∀ p : Nat × NodeRec, p ∈ aupdate (fun n => addPredecessor n G.nextEdgeId)
      (aupdate (fun n => addSuccessor n G.nextEdgeId) G.nodes s) d →
      ∃ n0, alookup G.nodes p.1 = some n0 ∧
        p.2.children = (if p.1 = s then n0.children ++ [G.nextEdgeId] else n0.children) ∧
        p.2.parents = (if p.1 = d then n0.parents ++ [G.nextEdgeId] else n0.parents) := by
    intro p hp
    have halk := alookup_of_mem_nodup _ p hnodN2 hp
    by_cases hd1 : p.1 = d
    · rw [hd1, alookup_aupdate_self] at halk
      by_cases hs1 : p.1 = s
      · rw [← hd1, hs1, alookup_aupdate_self] at halk
        cases hn0 : alookup G.nodes s with
        | none => rw [hn0] at halk; cases halk
        | some n0 =>
            rw [hn0] at halk
            simp only [Option.map_some', Option.some_inj] at halk
            refine ⟨n0, by rw [hs1, hn0], ?_, ?_⟩
            · rw [← halk, if_pos hs1]
              rfl
            · rw [← halk, if_pos hd1]
              rfl
      · rw [alookup_aupdate_other _ _ _ _ (fun hc => hs1 (hd1.trans hc.symm))] at halk
        cases hn0 : alookup G.nodes d with
        | none => rw [hn0] at halk; cases halk
        | some n0 =>
            rw [hn0] at halk
            simp only [Option.map_some', Option.some_inj] at halk
            refine ⟨n0, by rw [hd1, hn0], ?_, ?_⟩
            · rw [← halk, if_neg hs1]
              rfl
            · rw [← halk, if_pos hd1]
              rfl
    · rw [alookup_aupdate_other _ _ _ _ (fun hc => hd1 hc.symm)] at halk
      by_cases hs1 : p.1 = s
      · rw [hs1, alookup_aupdate_self] at halk
        cases hn0 : alookup G.nodes s with
        | none => rw [hn0] at halk; cases halk
        | some n0 =>
            rw [hn0] at halk
            simp only [Option.map_some', Option.some_inj] at halk
            refine ⟨n0, by rw [hs1, hn0], ?_, ?_⟩
            · rw [← halk, if_pos hs1]
              rfl
            · rw [← halk, if_neg hd1]
              rfl
      · rw [alookup_aupdate_other _ _ _ _ (fun hc => hs1 hc.symm)] at halk
        exact ⟨p.2, halk, by rw [if_neg hs1], by rw [if_neg hd1]⟩
  constructor
  · rw [List.map_append, hkeys]
    rfl
  refine ⟨?_, hnodN2, ?_, ?_, ?_, ?_⟩
  · rw [List.nodup_append]
    refine ⟨hnodE, by simp, ?_⟩
    intro a ha hb
    simp at hb
    rw [hb] at ha
    exact hnotmemE ha
  · intro x hx
    show x < G.nextEdgeId + 1
    rcases List.mem_append.mp hx with hx | hx
    · have := hbound x hx
      omega
    · rw [List.mem_singleton] at hx
      omega
  · intro p hp
    rcases List.mem_append.mp hp with hp | hp
    · obtain ⟨hsl, hdl⟩ := hlive p hp
      rw [alookup_aupdate_isSome, alookup_aupdate_isSome,
        alookup_aupdate_isSome, alookup_aupdate_isSome]
      exact ⟨hsl, hdl⟩
    · rw [List.mem_singleton] at hp
      rw [hp]
      rw [alookup_aupdate_isSome, alookup_aupdate_isSome,
        alookup_aupdate_isSome, alookup_aupdate_isSome]
      exact ⟨hs, hd⟩
  · intro p hp
    obtain ⟨n0, hn0, hchildp, _⟩ := hrec p hp
    have hspec := hchild (p.1, n0) (alookup_mem G.nodes p.1 n0 hn0)
    dsimp only at hspec
    rw [hchildp, hfsingle, hcongr_src, ← hspec]
    rw [edgeSrcIs_eq_some _ p.1 G.nextEdgeId (EdgeRec.mk s d) hnew]
    by_cases hs1 : p.1 = s
    · rw [if_pos hs1]
      rw [if_pos (by rw [hs1]; simp)]
    · rw [if_neg hs1]
      rw [if_neg (by simp; intro hc; exact hs1 hc.symm)]
      rw [List.append_nil]
  · intro p hp
    obtain ⟨n0, hn0, _, hparp⟩ := hrec p hp
    have hspec := hpar (p.1, n0) (alookup_mem G.nodes p.1 n0 hn0)
    dsimp only at hspec
    rw [hparp, hfsingle, hcongr_dst, ← hspec]
    rw [edgeDstIs_eq_some _ p.1 G.nextEdgeId (EdgeRec.mk s d) hnew]
    by_cases hd1 : p.1 = d
    · rw [if_pos hd1]
      rw [if_pos (by rw [hd1]; simp)]
    · rw [if_neg hd1]
      rw [if_neg (by simp; intro hc; exact hd1 hc.symm)]
      rw [List.append_nil]

theorem aremove_subset {β : Type} :
    ∀ (m : List (Nat × β)) (k : Nat) (p : Nat × β), p ∈ aremove m k → p ∈ m := by
  intro m k
  induction m with
  | nil => intro p hp; cases hp
  | cons q rest ih =>
      intro p hp
      rw [aremove] at hp
      by_cases hq : q.1 = k
      · rw [if_pos hq] at hp
        exact List.mem_cons_of_mem q (ih p hp)
      · rw [if_neg hq] at hp
        rw [List.mem_cons] at hp
        rcases hp with rfl | hp
        · exact List.mem_cons_self _ _
        · exact List.mem_cons_of_mem q (ih p hp)

theorem edgeIs_comm_and (heap : List (Nat × EdgeRec)) (s d : Nat) :
    (fun y => edgeDstIs heap d y && edgeSrcIs heap s y) = edgeIs heap s d := by
  funext y
  rw [edgeIs, edgeDstIs, edgeSrcIs]
  cases alookup heap y with
  | none => rfl
  | some e => exact Bool.and_comm _ _

theorem wf_eraseEdge (G : CGraph) (s d : Nat) (b : Bool) (G2 : CGraph) (hwf : Wf G)
    (h : eraseEdge G s d = (b, G2)) : Wf G2 := by
  rw [eraseEdge] at h
  by_cases hs : (alookup G.nodes s).isSome = false
  · rw [if_pos hs, Prod.mk.injEq] at h
    rw [← h.2]
    exact hwf
  rw [if_neg hs] at h
  by_cases hd : (alookup G.nodes d).isSome = false
  · rw [if_pos hd, Prod.mk.injEq] at h
    rw [← h.2]
    exact hwf
  rw [if_neg hd] at h
  cases hfind : findEdgeIdx G s d with
  | none =>
      rw [hfind] at h
      dsimp only at h
      rw [Prod.mk.injEq] at h
      rw [← h.2]
      exact hwf
  | some j =>
      rw [hfind] at h
      dsimp only at h
      rw [Prod.mk.injEq] at h
      rw [← h.2]
      obtain ⟨hkeys, hnodE, hnodN, hbound, hlive, hchild, hpar⟩ := hwf
      have hscan : scanIdx (edgeIs G.heap s d) G.edges = some j := hfind
      obtain ⟨x, l1, l2, hl, hx, h1, hj, herase, hget⟩ :=
        scanIdx_some_decomp (edgeIs G.heap s d) G.edges j hscan
      rw [hget, herase]
      obtain ⟨e, he, hes, hed⟩ := edgeIs_true G.heap s d x hx
      have hnd2 : (l1 ++ x :: l2).Nodup := by rw [← hl]; exact hnodE
      have hxout : x ∉ l1 ++ l2 :=
        (List.nodup_cons.mp (List.nodup_middle.mp hnd2)).1
      have hne : ∀ y ∈ l1 ++ l2, x ≠ y := fun y hy hc => hxout (hc ▸ hy)
      have hagree : ∀ y ∈ l1 ++ l2,
          alookup (aremove G.heap x) y = alookup G.heap y := fun y hy =>
        alookup_aremove_other G.heap x y (hne y hy)
      have hcongr_src : ∀ w, (l1 ++ l2).filter (edgeSrcIs (aremove G.heap x) w) =
          (l1 ++ l2).filter (edgeSrcIs G.heap w) := by
        intro w
        apply List.filter_congr
        intro y hy
        exact edgeSrcIs_congr G.heap _ w y (hagree y hy)
      have hcongr_dst : ∀ w, (l1 ++ l2).filter (edgeDstIs (aremove G.heap x) w) =
          (l1 ++ l2).filter (edgeDstIs G.heap w) := by
        intro w
        apply List.filter_congr
        intro y hy
        exact edgeDstIs_congr G.heap _ w y (hagree y hy)
      have hnodN2 : ((aupdate (fun n => removePredecessor G.heap n s)
          (aupdate (fun n => removeSuccessor G.heap n d) G.nodes s) d).map Prod.fst).Nodup := by
        rw [aupdate_keys, aupdate_keys]
        exact hnodN
      have hrec : ∀ p : Nat × NodeRec, p ∈ aupdate (fun n => removePredecessor G.heap n s)
          (aupdate (fun n => removeSuccessor G.heap n d) G.nodes s) d →
          ∃ n0, alookup G.nodes p.1 = some n0 ∧
            p.2.children = (if p.1 = s then n0.children.eraseP (edgeDstIs G.heap d)
              else n0.children) ∧
            p.2.parents = (if p.1 = d then n0.parents.eraseP (edgeSrcIs G.heap s)
              else n0.parents) := by
        intro p hp
        have halk := alookup_of_mem_nodup _ p hnodN2 hp
        by_cases hd1 : p.1 = d
        · rw [hd1, alookup_aupdate_self] at halk
          by_cases hs1 : p.1 = s
          · have hsd : s = d := by rw [← hs1, hd1]
            rw [← hd1, hs1, alookup_aupdate_self] at halk
            cases hn0 : alookup G.nodes s with
            | none => rw [hn0] at halk; cases halk
            | some n0 =>
                rw [hn0] at halk
                simp only [Option.map_some', Option.some_inj] at halk
                refine ⟨n0, by rw [hs1, hn0], ?_, ?_⟩
                · rw [← halk, if_pos hs1, ← hsd]
                  rfl
                · rw [← halk, if_pos hd1]
                  rfl
          · rw [alookup_aupdate_other _ _ _ _ (fun hc => hs1 (hd1.trans hc.symm))] at halk
            cases hn0 : alookup G.nodes d with
            | none => rw [hn0] at halk; cases halk
            | some n0 =>
                rw [hn0] at halk
                simp only [Option.map_some', Option.some_inj] at halk
                refine ⟨n0, by rw [hd1, hn0], ?_, ?_⟩
                · rw [← halk, if_neg hs1]
                  rfl
                · rw [← halk, if_pos hd1]
                  rfl
        · rw [alookup_aupdate_other _ _ _ _ (fun hc => hd1 hc.symm)] at halk
          by_cases hs1 : p.1 = s
          · rw [hs1, alookup_aupdate_self] at halk
            cases hn0 : alookup G.nodes s with
            | none => rw [hn0] at halk; cases halk
            | some n0 =>
                rw [hn0] at halk
                simp only [Option.map_some', Option.some_inj] at halk
                refine ⟨n0, by rw [hs1, hn0], ?_, ?_⟩
                · rw [← halk, if_pos hs1]
                  rfl
                · rw [← halk, if_neg hd1]
                  rfl
          · rw [alookup_aupdate_other _ _ _ _ (fun hc => hs1 hc.symm)] at halk
            exact ⟨p.2, halk, by rw [if_neg hs1], by rw [if_neg hd1]⟩
      constructor
      · show (aremove G.heap x).map Prod.fst = l1 ++ l2
        rw [aremove_keys, hkeys, hl]
        exact filter_ne_middle l1 l2 x hnd2
      refine ⟨?_, hnodN2, ?_, ?_, ?_, ?_⟩
      · exact (List.nodup_cons.mp (List.nodup_middle.mp hnd2)).2
      · intro y hy
        apply hbound
        rw [hl]
        rcases List.mem_append.mp hy with hy | hy
        · exact List.mem_append_left _ hy
        · exact List.mem_append_right _ (List.mem_cons_of_mem x hy)
      · intro p hp
        have hmem := aremove_subset G.heap x p hp
        obtain ⟨hsl, hdl⟩ := hlive p hmem
        rw [alookup_aupdate_isSome, alookup_aupdate_isSome,
          alookup_aupdate_isSome, alookup_aupdate_isSome]
        exact ⟨hsl, hdl⟩
      · intro p hp
        obtain ⟨n0, hn0, hchildp, _⟩ := hrec p hp
        have hspec := hchild (p.1, n0) (alookup_mem G.nodes p.1 n0 hn0)
        dsimp only at hspec
        show p.2.children = (l1 ++ l2).filter (edgeSrcIs (aremove G.heap x) p.1)
        rw [hcongr_src p.1, hchildp]
        by_cases hs1 : p.1 = s
        · rw [if_pos hs1, hspec, hs1]
          rw [eraseP_filter, ← edgeIs_eq_and, hl,
            eraseP_first_decomp _ x l1 l2 h1 hx]
        · rw [if_neg hs1, hspec, hl]
          rw [List.filter_append, List.filter_append, List.filter_cons]
          have hqx : edgeSrcIs G.heap p.1 x = false := by
            rw [edgeSrcIs_eq_some G.heap p.1 x e he, hes]
            simp
            exact fun hc => hs1 hc.symm
          rw [hqx, if_neg (by simp)]
      · intro p hp
        obtain ⟨n0, hn0, _, hparp⟩ := hrec p hp
        have hspec := hpar (p.1, n0) (alookup_mem G.nodes p.1 n0 hn0)
        dsimp only at hspec
        show p.2.parents = (l1 ++ l2).filter (edgeDstIs (aremove G.heap x) p.1)
        rw [hcongr_dst p.1, hparp]
        by_cases hd1 : p.1 = d
        · rw [if_pos hd1, hspec, hd1]
          rw [eraseP_filter, edgeIs_comm_and, hl,
            eraseP_first_decomp _ x l1 l2 h1 hx]
        · rw [if_neg hd1, hspec, hl]
          rw [List.filter_append, List.filter_append, List.filter_cons]
          have hqx : edgeDstIs G.heap p.1 x = false := by
            rw [edgeDstIs_eq_some G.heap p.1 x e he, hed]
            simp
            exact fun hc => hd1 hc.symm
          rw [hqx, if_neg (by simp)]

theorem wf_applyOp (G : CGraph) (op : GraphOp) (G2 : CGraph) (hwf : Wf G)
    (h : applyOp G op = some G2) : Wf G2 := by
  cases op with
  | insNode id data =>
      rw [applyOp, Option.some_inj] at h
      rw [← h]
      exact wf_insertNode G id data hwf
  | insEdge s d =>
      rw [applyOp] at h
      cases hi : insertEdge G s d with
      | none =>
          rw [hi, Option.some_inj] at h
          rw [← h]
          exact hwf
      | some p =>
          rw [hi] at h
          dsimp only at h
          rw [Option.some_inj] at h
          rw [← h]
          exact wf_insertEdge G s d p.1 p.2 hwf (by rw [hi])
  | delNode id =>
      rw [applyOp] at h
      cases he : eraseNode G id with
      | none => rw [he] at h; cases h
      | some p =>
          rw [he] at h
          simp only [Option.map_some', Option.some_inj] at h
          exact (wf_eraseNode G id p.1 G2 hwf (by rw [he, ← h])).1
  | delEdge s d =>
      rw [applyOp, Option.some_inj] at h
      rw [← h]
      exact wf_eraseEdge G s d (eraseEdge G s d).1 (eraseEdge G s d).2 hwf rfl

theorem wf_foldOps : ∀ (ops : List GraphOp) (G0 G : CGraph), Wf G0 →
    ops.foldlM applyOp G0 = some G → Wf G := by
  intro ops
  induction ops with
  | nil =>
      intro G0 G h0 h
      cases h
      exact h0
  | cons op rest ih =>
      intro G0 G h0 h
      rw [List.foldlM_cons] at h
      cases ha : applyOp G0 op with
      | none => rw [ha] at h; cases h
      | some G1 =>
          rw [ha] at h
          exact ih G1 G (wf_applyOp G0 op G1 h0 ha) h

theorem wf_runOps (ops : List GraphOp) (G : CGraph) (h : runOps ops = some G) : Wf G :=
  wf_foldOps ops newGraph G wf_newGraph h

/-- C6: graph integrity.  For every graph reachable from the fresh graph by
a finite sequence of `insertNode`, `insertEdge`, `eraseNode` and `eraseEdge`
operations (`none` marks a run whose `eraseNode` tripped undefined
behaviour), every stored edge's source and destination resolve to live
nodes; and when a further `eraseNode v` returns `true`, the node `v` is
gone, no remaining edge has `v` as source or destination, and no remaining
node's incidence lists name an edge incident to `v`. -/
theorem graph_integrity (ops : List GraphOp) (G : CGraph) (h : runOps ops = some G) :
    (∀ p ∈ G.heap, (alookup G.nodes p.2.src).isSome = true ∧
                   (alookup G.nodes p.2.dst).isSome = true) ∧
    (∀ v G2, eraseNode G v = some (true, G2) →
      alookup G2.nodes v = none ∧
      (∀ p ∈ G2.heap, p.2.src ≠ v ∧ p.2.dst ≠ v) ∧
      (∀ p ∈ G2.nodes, ∀ eid, eid ∈ p.2.children ∨ eid ∈ p.2.parents →
        ∀ e, alookup G2.heap eid = some e → e.src ≠ v ∧ e.dst ≠ v)) := by
  have hwf := wf_runOps ops G h
  refine ⟨hwf.2.2.2.2.1, ?_⟩
  intro v G2 herase
  obtain ⟨hwf2, hcond⟩ := wf_eraseNode G v true G2 hwf herase
  obtain ⟨hnov, hgone⟩ := hcond rfl
  refine ⟨hgone, hnov, ?_⟩
  intro p _ eid _ e he
  exact hnov (eid, e) (alookup_mem G2.heap eid e he)

/-- Operation sequence exercising all four mutators, for the concrete
integrity check. -/
def demoOps : List GraphOp :=
  [GraphOp.insNode 1 7, GraphOp.insNode 2 8, GraphOp.insNode 3 9,
   GraphOp.insEdge 1 2, GraphOp.insEdge 2 3, GraphOp.delEdge 2 3,
   GraphOp.insEdge 1 3, GraphOp.delNode 3, GraphOp.insNode 4 10,
   GraphOp.insEdge 4 2]

/-- The graph those operations produce. -/
def demoG6 : CGraph := (runOps demoOps).getD newGraph

theorem graph_integrity_witness :
    runOps demoOps = some demoG6 ∧
    ((∀ p ∈ demoG6.heap, (alookup demoG6.nodes p.2.src).isSome = true ∧
                         (alookup demoG6.nodes p.2.dst).isSome = true) ∧
     (∀ v G2, eraseNode demoG6 v = some (true, G2) →
       alookup G2.nodes v = none ∧
       (∀ p ∈ G2.heap, p.2.src ≠ v ∧ p.2.dst ≠ v) ∧
       (∀ p ∈ G2.nodes, ∀ eid, eid ∈ p.2.children ∨ eid ∈ p.2.parents →
         ∀ e, alookup G2.heap eid = some e → e.src ≠ v ∧ e.dst ≠ v))) :=
  ⟨by decide, graph_integrity demoOps demoG6 (by decide)⟩
